import Mathlib

/-!
Dust Racing 2D: oriented bounding box, friction, collision state, steering, editor arguments

A shallow embedding of `src/game/MiniCore/Core/mcobbox.hh`, followed by
`src/game/MiniCore/src/Physics/mcfrictiongenerator.cc`, the per-pair collision state of
`src/game/MiniCore/src/Physics/mccollisiondetector.hh`, `AI::steerControl` and
`AI::speedControl` of `src/game/ai.cpp`, `Application::parseArgs` of
`src/editor/application.cpp` and `MCTextureText::updateTextDimensions` of
`src/game/MiniCore/src/Text/mctexturetext.cc`.

The class template `MCOBBox<T>` is embedded over an arbitrary coordinate type `T`
carrying exact ordered-ring arithmetic (the rationals are used for the concrete evaluations).
`MCUint` values (angles, vertex indices) are natural numbers; no arithmetic is done on them
except the mask `index & 0x3`.

The headers `mcvector2d.hh`, `mcbbox.hh`, `mcmathutil.hh` and `mctrigonom.hh` are used by
`mcobbox.hh` but are not among the sources; the few operations the box needs from them are
modelled below, each marked as such.
-/

namespace MiniCore

/-! ## Collaborating types -/

/-- Modelled from the spec: `MCVector2d<T>` (mcvector2d.hh is not among the sources), an ordered
pair of components `i`, `j` with value semantics and componentwise arithmetic. -/
structure MCVector2d (T : Type) where
  i : T
  j : T
deriving DecidableEq

namespace MCVector2d

variable {T : Type}

/-- Modelled from the spec: `operator+` of `MCVector2d`, componentwise sum. -/
def add [Add T] (a b : MCVector2d T) : MCVector2d T := ⟨a.i + b.i, a.j + b.j⟩

/-- Modelled from the spec: `operator-` of `MCVector2d`, componentwise difference. -/
def sub [Sub T] (a b : MCVector2d T) : MCVector2d T := ⟨a.i - b.i, a.j - b.j⟩

/-- Modelled from the spec: `operator*=` of `MCVector2d` with a scalar, as used by
`MCOBBox::scale` ("uniformly scales ... all corner vectors"). -/
def scaled [Mul T] (a : MCVector2d T) (s : T) : MCVector2d T := ⟨a.i * s, a.j * s⟩

/-- Modelled from the spec: `operator*` between two `MCVector2d`, the scalar cross product
whose sign `MCOBBox::contains` tests ("all four cross-product signs must agree"). -/
def cross [Mul T] [Sub T] (a b : MCVector2d T) : T := a.i * b.j - a.j * b.i

instance [Add T] : Add (MCVector2d T) := ⟨add⟩
instance [Sub T] : Sub (MCVector2d T) := ⟨sub⟩

end MCVector2d

/-- Modelled from the spec: `MCBBox<T>` (mcbbox.hh is not among the sources), the axis-aligned
rectangle "defined by (x1,y1,x2,y2)"; the constructor stores its four arguments in that order. -/
structure MCBBox (T : Type) where
  x1 : T
  y1 : T
  x2 : T
  y2 : T
deriving DecidableEq

/-- Modelled from the spec: the result type `MCMathUtil::SIGN` of `MCMathUtil::sign`
(mcmathutil.hh is not among the sources). -/
inductive SIGN where
  | NEG
  | ZERO
  | POS
deriving DecidableEq

namespace MCMathUtil

/-- Modelled from the spec: `MCMathUtil::sign` (mcmathutil.hh is not among the sources): the sign
of a value. What the helper returns for the value zero is not fixed by the spec, so it is the
parameter `atZero`; every result below holds for each of its three possible values. -/
def sign {T : Type} [Zero T] [LT T] [DecidableRel (fun (x y : T) => x < y)]
    (atZero : SIGN) (x : T) : SIGN :=
  if x < 0 then SIGN.NEG else if 0 < x then SIGN.POS else atZero

end MCMathUtil

/-- Modelled from the spec: the "precomputed sine/cosine lookup" of `MCTrigonom`
(mctrigonom.hh is not among the sources): one cosine and one sine entry per angle in degrees.
The tables are a parameter of everything that rotates. -/
structure MCTrigonom (T : Type) where
  cosLut : Nat → T
  sinLut : Nat → T

namespace MCTrigonom

variable {T : Type}

/-- Modelled from the spec: `MCTrigonom::rotatedX(x, y, angle)`, the first component of `(x, y)`
rotated by `angle` degrees about the origin, through the lookup tables. -/
def rotatedX [Mul T] [Sub T] (tr : MCTrigonom T) (x y : T) (a : Nat) : T :=
  tr.cosLut a * x - tr.sinLut a * y

/-- Modelled from the spec: `MCTrigonom::rotatedY(x, y, angle)`, the second component of `(x, y)`
rotated by `angle` degrees about the origin, through the lookup tables. -/
def rotatedY [Mul T] [Add T] (tr : MCTrigonom T) (x y : T) (a : Nat) : T :=
  tr.sinLut a * x + tr.cosLut a * y

end MCTrigonom

/-- `std::min(a, b)`: returns `b` when `b < a`, else `a`. -/
def stdMin {T : Type} [LT T] [DecidableRel (fun (x y : T) => x < y)] (a b : T) : T :=
  if b < a then b else a

/-- `std::max(a, b)`: returns `b` when `a < b`, else `a`. -/
def stdMax {T : Type} [LT T] [DecidableRel (fun (x y : T) => x < y)] (a b : T) : T :=
  if a < b then b else a

/-! ## The oriented bounding box -/

/-- The data members of `MCOBBox<T>`: half extents, location, angle and the four vertex
vectors `m_v[0..3]` (relative to the location). -/
structure MCOBBox (T : Type) where
  m_hx : T
  m_hy : T
  m_p : MCVector2d T
  m_a : Nat
  m_v0 : MCVector2d T
  m_v1 : MCVector2d T
  m_v2 : MCVector2d T
  m_v3 : MCVector2d T
deriving DecidableEq

namespace MCOBBox

variable {T : Type}

/-- The constructor `MCOBBox(hx, hy, loc)`. -/
def mk0 [Neg T] (newHx newHy : T) (loc : MCVector2d T) : MCOBBox T :=
  { m_hx := newHx
    m_hy := newHy
    m_p := loc
    m_a := 0
    m_v0 := ⟨-newHx, -newHy⟩
    m_v1 := ⟨-newHx, newHy⟩
    m_v2 := ⟨newHx, newHy⟩
    m_v3 := ⟨newHx, -newHy⟩ }

/-- The accessor `angle()`. -/
def angle (b : MCOBBox T) : Nat := b.m_a

/-- The accessor `location()`. -/
def location (b : MCOBBox T) : MCVector2d T := b.m_p

/-- The accessor `hx()`. -/
def hx (b : MCOBBox T) : T := b.m_hx

/-- The accessor `hy()`. -/
def hy (b : MCOBBox T) : T := b.m_hy

/-- The array access `m_v[k]` for an in-range index `k < 4`. -/
def m_v (b : MCOBBox T) (k : Nat) : MCVector2d T :=
  match k with
  | 0 => b.m_v0
  | 1 => b.m_v1
  | 2 => b.m_v2
  | _ => b.m_v3

/-- The accessor `vertex(index)`: `m_v[index & 0x3] + m_p`. -/
def vertex [Add T] (b : MCOBBox T) (index : Nat) : MCVector2d T :=
  b.m_v (index &&& 3) + b.m_p

/-- The method `contains(p)`: four edge cross products against the translated point, all of
the same sign. -/
def contains [LinearOrderedRing T] (atZero : SIGN) (b : MCOBBox T) (p : MCVector2d T) : Bool :=
  let p := p - b.m_p
  let e0 := b.m_v1 - b.m_v0
  let e1 := b.m_v2 - b.m_v1
  let e2 := b.m_v3 - b.m_v2
  let e3 := b.m_v0 - b.m_v3
  let ref := MCMathUtil.sign atZero (e0.cross (b.m_v1 - p))
  if MCMathUtil.sign atZero (e1.cross (b.m_v2 - p)) = ref ∧
      MCMathUtil.sign atZero (e2.cross (b.m_v3 - p)) = ref ∧
      MCMathUtil.sign atZero (e3.cross (b.m_v0 - p)) = ref then
    true
  else
    false

/-- The method `rotate(a)`. -/
def rotate [Ring T] (tr : MCTrigonom T) (b : MCOBBox T) (a : Nat) : MCOBBox T :=
  if a ≠ b.m_a then
    let v0 : MCVector2d T := ⟨tr.rotatedX b.m_v0.i b.m_v0.j a, tr.rotatedY b.m_v0.i b.m_v0.j a⟩
    let v1 : MCVector2d T := ⟨tr.rotatedX b.m_v1.i b.m_v1.j a, tr.rotatedY b.m_v1.i b.m_v1.j a⟩
    { b with
      m_a := a
      m_v0 := v0
      m_v1 := v1
      m_v2 := ⟨-v0.i, -v0.j⟩
      m_v3 := ⟨-v1.i, -v1.j⟩ }
  else
    b

/-- The method `translate(p)`. -/
def translate (b : MCOBBox T) (p : MCVector2d T) : MCOBBox T :=
  { b with m_p := p }

/-- The method `intersects(const MCOBBox<U> & r)`. -/
def intersects [LinearOrderedRing T] (atZero : SIGN) (b r : MCOBBox T) : Bool :=
  if r.contains atZero b.m_v0 || r.contains atZero b.m_v1 ||
      r.contains atZero b.m_v2 || r.contains atZero b.m_v3 then
    true
  else if b.contains atZero r.m_v0 || b.contains atZero r.m_v1 ||
      b.contains atZero r.m_v2 || b.contains atZero r.m_v3 then
    true
  else
    false

/-- The method `bbox()`. -/
def bbox [LinearOrderedRing T] (b : MCOBBox T) : MCBBox T :=
  let v0p := b.m_v0 + b.m_p
  let v1p := b.m_v1 + b.m_p
  let v2p := b.m_v2 + b.m_p
  let v3p := b.m_v3 + b.m_p
  { x1 := stdMin (stdMin v0p.i v1p.i) (stdMin v2p.i v3p.i)
    y1 := stdMin (stdMin v0p.j v1p.j) (stdMin v2p.j v3p.j)
    x2 := stdMax (stdMax v0p.i v1p.i) (stdMax v2p.i v3p.i)
    y2 := stdMax (stdMax v0p.j v1p.j) (stdMax v2p.j v3p.j) }

/-- The method `scale(s)`. -/
def scale [Mul T] (b : MCOBBox T) (s : T) : MCOBBox T :=
  { b with
    m_hx := b.m_hx * s
    m_hy := b.m_hy * s
    m_v0 := b.m_v0.scaled s
    m_v1 := b.m_v1.scaled s
    m_v2 := b.m_v2.scaled s
    m_v3 := b.m_v3.scaled s }

end MCOBBox

/-! ## Geometric vocabulary of the specification

The region "spanned by vertex(0..3)" is described directly from the world-space vertices:
a point of the region is `vertex(0) + s * (vertex(1) - vertex(0)) + t * (vertex(3) - vertex(0))`
with both parameters between 0 and 1. -/

/-- Dot product of two vectors (used only to state that a box is a rectangle). -/
def dot {T : Type} [Mul T] [Add T] (a b : MCVector2d T) : T := a.i * b.i + a.j * b.j

/-- The box state is a rectangle with half extents `m_hx`, `m_hy`: the vertex vectors are
`v0, v1, -v0, -v1`, the edge `v0 → v1` has length `2 * m_hy`, the edge `v0 → v3` has length
`2 * m_hx`, and the two edges are perpendicular. -/
structure IsRectangle {T : Type} [LinearOrderedRing T] (b : MCOBBox T) : Prop where
  mirror2 : b.m_v2 = ⟨-b.m_v0.i, -b.m_v0.j⟩
  mirror3 : b.m_v3 = ⟨-b.m_v1.i, -b.m_v1.j⟩
  height : dot (b.m_v1 - b.m_v0) (b.m_v1 - b.m_v0) = (2 * b.m_hy) * (2 * b.m_hy)
  width : dot (b.m_v3 - b.m_v0) (b.m_v3 - b.m_v0) = (2 * b.m_hx) * (2 * b.m_hx)
  right : dot (b.m_v1 - b.m_v0) (b.m_v3 - b.m_v0) = 0

/-- The point `vertex(0) + s * (vertex(1) - vertex(0)) + t * (vertex(3) - vertex(0))`. -/
def rectPoint {T : Type} [Ring T] (b : MCOBBox T) (s t : T) : MCVector2d T :=
  ⟨(b.vertex 0).i + s * ((b.vertex 1).i - (b.vertex 0).i) + t * ((b.vertex 3).i - (b.vertex 0).i),
   (b.vertex 0).j + s * ((b.vertex 1).j - (b.vertex 0).j) + t * ((b.vertex 3).j - (b.vertex 0).j)⟩

/-- The point `p` lies strictly inside the rectangle spanned by `vertex(0..3)`. -/
def StrictlyInside {T : Type} [LinearOrderedRing T] (b : MCOBBox T) (p : MCVector2d T) : Prop :=
  ∃ s t : T, 0 < s ∧ s < 1 ∧ 0 < t ∧ t < 1 ∧ p = rectPoint b s t

/-- The point `p` lies in the closed rectangle spanned by `vertex(0..3)` (boundary included). -/
def InRectangle {T : Type} [LinearOrderedRing T] (b : MCOBBox T) (p : MCVector2d T) : Prop :=
  ∃ s t : T, 0 ≤ s ∧ s ≤ 1 ∧ 0 ≤ t ∧ t ≤ 1 ∧ p = rectPoint b s t

/-- The point `p` lies strictly outside the rectangle spanned by `vertex(0..3)`. -/
def StrictlyOutside {T : Type} [LinearOrderedRing T] (b : MCOBBox T) (p : MCVector2d T) : Prop :=
  ¬ InRectangle b p

/-! ## Auxiliary definitions and concrete boxes -/

section Fixtures

variable {T : Type}

/-- The four cross products `contains` takes the sign of. -/
def MCOBBox.edgeCross [LinearOrderedRing T] (b : MCOBBox T) (p : MCVector2d T) (k : Nat) : T :=
  let q := p - b.m_p
  match k with
  | 0 => (b.m_v1 - b.m_v0).cross (b.m_v1 - q)
  | 1 => (b.m_v2 - b.m_v1).cross (b.m_v2 - q)
  | 2 => (b.m_v3 - b.m_v2).cross (b.m_v3 - q)
  | _ => (b.m_v0 - b.m_v3).cross (b.m_v0 - q)

/-- A rectangle of half extents 2 and 1 centred at (10, -3), turned by the angle whose cosine
is 3/5 and sine is 4/5. -/
def tiltedBox : MCOBBox ℚ :=
  { m_hx := 2
    m_hy := 1
    m_p := ⟨10, -3⟩
    m_a := 53
    m_v0 := ⟨-2 / 5, -11 / 5⟩
    m_v1 := ⟨-2, -1⟩
    m_v2 := ⟨2 / 5, 11 / 5⟩
    m_v3 := ⟨2, 1⟩ }

/-- A square of half extent 1 centred at (10, 10). -/
def farBox : MCOBBox ℚ := MCOBBox.mk0 1 1 ⟨10, 10⟩

/-- A square of half extent 2 centred at the origin. -/
def originBox : MCOBBox ℚ := MCOBBox.mk0 2 2 ⟨0, 0⟩

/-- A square of half extent 1 centred at (11, 11), on the upper right vertex of `farBox`. -/
def nearBox : MCOBBox ℚ := MCOBBox.mk0 1 1 ⟨11, 11⟩

/-- A box of half extents 1 and 2 centred at (50, 0). -/
def shelfBox : MCOBBox ℚ := MCOBBox.mk0 1 2 ⟨50, 0⟩

/-- A square of half extent 3 centred at (1, 1). -/
def crateBox : MCOBBox ℚ := MCOBBox.mk0 3 3 ⟨1, 1⟩

/-- A wide box: half extents 3 and 1, centred at the origin. -/
def wideBox : MCOBBox ℚ := MCOBBox.mk0 3 1 ⟨0, 0⟩

/-- A tall box: half extents 1 and 3, centred at the origin. -/
def tallBox : MCOBBox ℚ := MCOBBox.mk0 1 3 ⟨0, 0⟩

/-- A unit square centred at the origin. -/
def unitBox : MCOBBox ℚ := MCOBBox.mk0 1 1 ⟨0, 0⟩

/-- A square of half extent 2 centred at (1, 1), on the upper right vertex of `unitBox`. -/
def cornerBox : MCOBBox ℚ := MCOBBox.mk0 2 2 ⟨1, 1⟩

/-- A sine/cosine lookup table with the exact entries at the multiples of 90 degrees; the
other angles have no rational sine and cosine and are not consulted below (they hold the
entry of angle 0). -/
def quarterTurnLut : MCTrigonom ℚ :=
  { cosLut := fun a => if a = 90 then 0 else if a = 180 then -1 else if a = 270 then 0 else 1
    sinLut := fun a => if a = 90 then 1 else if a = 180 then 0 else if a = 270 then -1 else 0 }

/-- The `k`-th axis-aligned corner `(-hx,-hy)`, `(-hx,hy)`, `(hx,hy)`, `(hx,-hy)` for the
current half extents of the box. -/
def axisCorner [Neg T] (b : MCOBBox T) (k : Nat) : MCVector2d T :=
  match k with
  | 0 => ⟨-b.hx, -b.hy⟩
  | 1 => ⟨-b.hx, b.hy⟩
  | 2 => ⟨b.hx, b.hy⟩
  | _ => ⟨b.hx, -b.hy⟩

/-- The `k`-th axis-aligned corner rotated by `angle()` degrees about the origin: where the
corner vector of vertex `k` belongs according to the stored angle. -/
def cornerAtAngle [Ring T] (tr : MCTrigonom T) (b : MCOBBox T) (k : Nat) : MCVector2d T :=
  ⟨tr.rotatedX (axisCorner b k).i (axisCorner b k).j b.angle,
   tr.rotatedY (axisCorner b k).i (axisCorner b k).j b.angle⟩

end Fixtures

/-! ## Box construction, reachable states, and the axis-aligned overload -/

section BoxExtras

variable {T : Type}

/-- The constructor `MCOBBox(hx, hy, loc)` seen as an operation that could fail: its body has
no check, assertion, throw or early exit, so it yields a box for every argument. -/
def MCOBBox.construct [Neg T] (newHx newHy : T) (loc : MCVector2d T) : Option (MCOBBox T) :=
  some (MCOBBox.mk0 newHx newHy loc)

/-- The box states reachable from the constructor by `rotate`, `translate` and `scale`. -/
inductive MCOBBox.Reachable [Ring T] (tr : MCTrigonom T) : MCOBBox T → Prop where
  | ctor (hx hy : T) (loc : MCVector2d T) : MCOBBox.Reachable tr (MCOBBox.mk0 hx hy loc)
  | rotate (b : MCOBBox T) (a : Nat) :
      MCOBBox.Reachable tr b → MCOBBox.Reachable tr (b.rotate tr a)
  | translate (b : MCOBBox T) (p : MCVector2d T) :
      MCOBBox.Reachable tr b → MCOBBox.Reachable tr (b.translate p)
  | scale (b : MCOBBox T) (s : T) :
      MCOBBox.Reachable tr b → MCOBBox.Reachable tr (b.scale s)

/-- Modelled from the spec: `MCBBox::contains(p)` (mcbbox.hh is not among the sources): the point
lies in the axis-aligned rectangle `(x1,y1,x2,y2)`. Whether the boundary counts is not fixed
by the spec, so it is the parameter `closed`. -/
def MCBBox.contains [LinearOrder T] (closed : Bool) (r : MCBBox T) (p : MCVector2d T) : Bool :=
  if closed then
    decide (r.x1 ≤ p.i ∧ p.i ≤ r.x2 ∧ r.y1 ≤ p.j ∧ p.j ≤ r.y2)
  else
    decide (r.x1 < p.i ∧ p.i < r.x2 ∧ r.y1 < p.j ∧ p.j < r.y2)

/-- The method `intersects(const MCBBox<U> & r)`. -/
def MCOBBox.intersectsBBox [LinearOrderedRing T] (atZero : SIGN) (closed : Bool)
    (b : MCOBBox T) (r : MCBBox T) : Bool :=
  if r.contains closed b.m_v0 || r.contains closed b.m_v1 ||
      r.contains closed b.m_v2 || r.contains closed b.m_v3 then
    true
  else if b.contains atZero ⟨r.x1, r.y1⟩ || b.contains atZero ⟨r.x1, r.y2⟩ ||
      b.contains atZero ⟨r.x2, r.y1⟩ || b.contains atZero ⟨r.x2, r.y2⟩ then
    true
  else
    false

/-- The axis-aligned square from (-2, -2) to (2, 2). -/
def originSquare : MCBBox ℚ := ⟨-2, -2, 2, 2⟩

/-- The axis-aligned strip from (21/2, 0) to (20, 20); it covers the right edge of `farBox`. -/
def rightStrip : MCBBox ℚ := ⟨21 / 2, 0, 20, 20⟩

end BoxExtras

/-! ## Friction generator (`mcfrictiongenerator.cc`)

Floating-point values are embedded as elements of a linearly ordered field (exact arithmetic). -/

section FrictionDefs

variable {T : Type}

/-- Modelled from the spec: unary `operator-` of `MCVector2d`, componentwise negation. -/
def MCVector2d.neg [Neg T] (a : MCVector2d T) : MCVector2d T := ⟨-a.i, -a.j⟩

/-- Modelled from the spec: the vector helpers `lengthFast()` and `normalizedFast()` used on the
velocity (the vector headers are not among the sources): the measured length of a vector and
its normalised direction. Both are parameters of the friction generator model. -/
structure FastVectorOps (T : Type) where
  lengthFast : MCVector2d T → T
  normalizedFast : MCVector2d T → MCVector2d T

/-- Modelled from the spec: the part of `MCPhysicsComponent` the friction generator touches
(mcphysicscomponent.hh is not among the sources): "mass, velocity, angular velocity,
accumulated force and torque for the current tick". -/
structure MCPhysicsComponent (T : Type) where
  mass : T
  velocity : MCVector2d T
  angularVelocity : T
  forces : MCVector2d T
  torque : T
deriving DecidableEq

/-- Modelled from the spec: `MCPhysicsComponent::addForce`, "mutated by force generators
(additive)": the force is added to the accumulated force. -/
def MCPhysicsComponent.addForce [Add T] (pc : MCPhysicsComponent T) (f : MCVector2d T) :
    MCPhysicsComponent T :=
  { pc with forces := pc.forces + f }

/-- Modelled from the spec: `MCPhysicsComponent::addTorque`, additive like `addForce`. -/
def MCPhysicsComponent.addTorque [Add T] (pc : MCPhysicsComponent T) (t : T) :
    MCPhysicsComponent T :=
  { pc with torque := pc.torque + t }

/-- Modelled from the spec: the part of `MCObject` the friction generator touches (mcobject.hh
is not among the sources): its physics component and whether `shape()` is set ("owns one
Shape (optional)"). -/
structure MCObject (T : Type) where
  physicsComponent : MCPhysicsComponent T
  hasShape : Bool
deriving DecidableEq

/-- The constant `ROTATION_DECAY = 0.01f`. -/
def ROTATION_DECAY [DivisionRing T] : T := 1 / 100

/-- The data members of `MCFrictionGenerator`. -/
structure MCFrictionGenerator (T : Type) where
  m_coeffLinTot : T
  m_coeffRotTot : T
deriving DecidableEq

/-- The constructor `MCFrictionGenerator(coeffLin, coeffRot)`; `gravityK` stands for
`MCWorld::instance().gravity().k()`, and `std::fabs` is the absolute value. -/
def MCFrictionGenerator.mk0 [LinearOrderedField T] (coeffLin coeffRot gravityK : T) :
    MCFrictionGenerator T :=
  { m_coeffLinTot := |coeffLin * gravityK|
    m_coeffRotTot := |coeffRot * gravityK * ROTATION_DECAY| }

/-- The method `MCFrictionGenerator::updateForce(object)`. -/
def MCFrictionGenerator.updateForce [LinearOrderedField T] (ops : FastVectorOps T)
    (g : MCFrictionGenerator T) (object : MCObject T) : MCObject T :=
  let physicsComponent := object.physicsComponent
  let length := ops.lengthFast physicsComponent.velocity
  let velocityDirection := ops.normalizedFast physicsComponent.velocity
  let pc1 :=
    if 1 ≤ length then
      physicsComponent.addForce
        ((velocityDirection.neg.scaled g.m_coeffLinTot).scaled physicsComponent.mass)
    else
      physicsComponent.addForce
        (((velocityDirection.neg.scaled length).scaled g.m_coeffLinTot).scaled
          physicsComponent.mass)
  let pc2 :=
    if object.hasShape then
      let a := pc1.angularVelocity
      let pc3 := if 0 < a then pc1.addTorque (-g.m_coeffRotTot * pc1.mass * 1) else pc1
      if a < 0 then pc3.addTorque (g.m_coeffRotTot * pc3.mass * 1) else pc3
    else
      pc1
  { object with physicsComponent := pc2 }

/-- Squared length of a vector, used to compare force magnitudes without a square root. -/
def normSq [Mul T] [Add T] (a : MCVector2d T) : T := a.i * a.i + a.j * a.j

/-- Vector helpers that are exact on vectors along a coordinate axis (the only ones evaluated
below): the length is `|i| + |j|` and the direction is the vector divided by that length. -/
def axisOps : FastVectorOps ℚ :=
  { lengthFast := fun v => |v.i| + |v.j|
    normalizedFast := fun v =>
      if |v.i| + |v.j| = 0 then v else ⟨v.i / (|v.i| + |v.j|), v.j / (|v.i| + |v.j|)⟩ }

/-- A friction generator built with `coeffLin = 1/2`, `coeffRot = 3` under gravity `-10`. -/
def sampleGenerator : MCFrictionGenerator ℚ := MCFrictionGenerator.mk0 (1 / 2) 3 (-10)

/-- An object of mass 2 with a shape, moving at speed 1/2 along the x axis and spinning
forwards, with force (1, 1) and torque 7 already accumulated. -/
def slowObject : MCObject ℚ :=
  { physicsComponent :=
      { mass := 2, velocity := ⟨1 / 2, 0⟩, angularVelocity := 4, forces := ⟨1, 1⟩, torque := 7 }
    hasShape := true }

/-- An object of mass 2 with a shape, moving at speed 3 along the x axis and spinning
backwards, with nothing accumulated. -/
def fastObject : MCObject ℚ :=
  { physicsComponent :=
      { mass := 2, velocity := ⟨3, 0⟩, angularVelocity := -1, forces := ⟨0, 0⟩, torque := 0 }
    hasShape := true }

end FrictionDefs

/-! ## Collision state per object pair (`mccollisiondetector.hh`)

Only the class declaration of `MCCollisionDetector` is among the sources; the behaviour of
its operations is taken from the specification. -/

section CollisionDefs

/-- Modelled from the spec: the collision state kept per unordered object pair ("absent (no
prior contact) or present (currently overlapping)"), i.e. whether the pair has an entry in
`m_currentCollisions`. -/
inductive CollisionState where
  | absent
  | present
deriving DecidableEq

/-- Modelled from the spec: the two notifications a pair can receive. -/
inductive CollisionEvent where
  | collision
  | separation
deriving DecidableEq

/-- Modelled from the spec: what `MCCollisionDetector::detectCollisions` (its body is not among
the sources) does for one candidate pair, given the narrow-phase result `overlap`: "on a
positive test ... consult the per-pair collision-state to decide whether to also fire a
first-contact collision event". It never removes an entry. -/
def detectCollisions (overlap : Bool) (s : CollisionState) :
    CollisionState × List CollisionEvent :=
  if overlap then
    match s with
    | CollisionState.absent => (CollisionState.present, [CollisionEvent.collision])
    | CollisionState.present => (CollisionState.present, [])
  else
    (s, [])

/-- Modelled from the spec: what `MCCollisionDetector::iterateCurrentCollisions` (its body is
not among the sources) does for one pair: it "re-examines only pairs already marked as
colliding ...; for any pair no longer overlapping, fires a separation event and removes the
pair from the state map". -/
def iterateCurrentCollisions (overlap : Bool) (s : CollisionState) :
    CollisionState × List CollisionEvent :=
  match s with
  | CollisionState.present =>
    if overlap then (CollisionState.present, []) else
      (CollisionState.absent, [CollisionEvent.separation])
  | CollisionState.absent => (CollisionState.absent, [])

/-- One simulation tick for one pair: `detectCollisions` followed by
`iterateCurrentCollisions`, with the narrow-phase result of this tick. Returns the new state
and the events fired during the tick. -/
def collisionTick (overlap : Bool) (s : CollisionState) :
    CollisionState × List CollisionEvent :=
  ((iterateCurrentCollisions overlap (detectCollisions overlap s).1).1,
    (detectCollisions overlap s).2 ++
      (iterateCurrentCollisions overlap (detectCollisions overlap s).1).2)

/-- A sequence of ticks, one narrow-phase result per tick: the final state and, tick by tick,
the events fired. -/
def runTicks : List Bool → CollisionState → CollisionState × List (List CollisionEvent)
  | [], s => (s, [])
  | overlap :: rest, s =>
    ((runTicks rest (collisionTick overlap s).1).1,
      (collisionTick overlap s).2 :: (runTicks rest (collisionTick overlap s).1).2)

end CollisionDefs

/-! ## Computer player steering (`ai.cpp`)

Floating-point values are embedded as rationals (exact arithmetic). -/

section AIDefs

/-- The two values of `Car::Steer` that `AI::steerControl` passes to `Car::steer`. -/
inductive Steer where
  | Left
  | Right
deriving DecidableEq

/-- The normalisation loop of `AI::steerControl` in exact arithmetic: `while (!ok)` with
`diff - 360` when `diff > 180`, `diff + 360` when `diff < -180`, and exit otherwise. `fuel`
bounds the number of loop iterations; `none` means the bound was reached. The source computes
in `float`; for binary32 values of magnitude below `2^27`, which include the differences that
arise from a target angle in `[-180, 180]`, the two subtractions are exact and this loop is
the loop of the source (`normalizeDiffBinary32_eq_exact`); beyond that see
`normalizeDiffBinary32`. -/
def normalizeDiff : Nat → ℚ → Option ℚ
  | 0, _ => none
  | fuel + 1, diff =>
    if diff > 180 then normalizeDiff fuel (diff - 360)
    else if diff < -180 then normalizeDiff fuel (diff + 360)
    else some diff

/-- What one call of `AI::steerControl` does to its surroundings: the call of `Car::steer`
(direction and control value), if one is made, and the stored `m_lastDiff`. -/
structure SteerOutcome where
  steer : Option (Steer × ℚ)
  m_lastDiff : ℚ
deriving DecidableEq

/-- The method `AI::steerControl`. `angle` is the target direction in degrees
(`MCTrigonom::radToDeg(std::atan2(...))`, which is all the target node, the car location and
the random tolerance contribute), `carAngle` is `static_cast<int>(m_car.angle())`, `lastDiff`
is `m_lastDiff` before the call; `%` on `int` truncates towards zero. -/
def steerControl (fuel : Nat) (angle : ℚ) (carAngle : Int) (lastDiff : ℚ) :
    Option SteerOutcome :=
  let cur : ℚ := ((Int.tmod carAngle 360 : Int) : ℚ)
  match normalizeDiff fuel (angle - cur) with
  | none => none
  | some diff =>
    let control := diff * (25 / 1000) + (diff - lastDiff) * (25 / 1000)
    let maxControl : ℚ := 15 / 10
    let control := if control < 0 then -control else control
    let control := if control > maxControl then maxControl else control
    let maxDelta : ℚ := 3
    some
      { steer :=
          if diff < -maxDelta then some (Steer.Right, control)
          else if diff > maxDelta then some (Steer.Left, control)
          else none
        m_lastDiff := diff }

end AIDefs

/-! ## Editor command line (`editor/application.cpp`) -/

section EditorDefs

/-- What `Application::parseArgs` leaves behind: the language it passes to
`initTranslations` and the member `m_trackFile`. -/
structure ParsedArgs where
  lang : String
  m_trackFile : String
deriving DecidableEq

/-- The `for` loop of `Application::parseArgs` from index `i` on. The index is an
`unsigned int`; an argument list has fewer than `2^31` entries, so `i + i` does not wrap. -/
def parseArgsLoop (args : List String) (i : Nat) (st : ParsedArgs) : Except String ParsedArgs :=
  if h : i < args.length then
    if args[i] = "-h" ∨ args[i] = "--help" then
      Except.error "Exit due to help."
    else if args[i] = "--lang" ∧ i + i < args.length then
      parseArgsLoop args (i + 1 + 1) { st with lang := args.getD (i + 1) "" }
    else
      parseArgsLoop args (i + 1) { st with m_trackFile := args[i] }
  else
    Except.ok st
termination_by args.length - i

/-- The method `Application::parseArgs`: `lang` starts empty, `m_trackFile` is a default
constructed (empty) string, and the loop starts at index 1. -/
def parseArgs (args : List String) : Except String ParsedArgs :=
  parseArgsLoop args 1 { lang := "", m_trackFile := "" }

end EditorDefs

/-! ## Computer player speed control (`ai.cpp`) -/

section SpeedDefs

/-- The computer hints of a track tile that `AI::speedControl` tests for, `CH_BRAKE` and
`CH_BRAKE_HARD`; every other hint value (the tile header is not among the sources) behaves
like `CH_NONE`. -/
inductive ComputerHint where
  | CH_NONE
  | CH_BRAKE
  | CH_BRAKE_HARD
deriving DecidableEq

/-- The tile types that `AI::speedControl` tests for; every other tile type (the tile header
is not among the sources) behaves like `TT_OTHER`. -/
inductive TileType where
  | TT_CORNER_90
  | TT_CORNER_45_LEFT
  | TT_CORNER_45_RIGHT
  | TT_OTHER
deriving DecidableEq

/-- What `AI::speedControl` sets on the car: the arguments of `setAcceleratorEnabled` and
`setBrakeEnabled`. -/
structure CarControls where
  acceleratorEnabled : Bool
  brakeEnabled : Bool
deriving DecidableEq

/-- The method `AI::speedControl`; `computerHint` and `tileTypeEnum` are the two values read
from `currentTile`, `absSpeed` is `m_car.absSpeed()`. -/
def speedControl (computerHint : ComputerHint) (tileTypeEnum : TileType) (absSpeed : ℚ)
    (isRaceCompleted : Bool) : CarControls :=
  let accelerate := true
  let brake := false
  let scale : ℚ := 9 / 10
  let brake :=
    if computerHint = ComputerHint.CH_BRAKE then
      (if absSpeed > 14 * scale then true else brake)
    else brake
  let brake :=
    if computerHint = ComputerHint.CH_BRAKE_HARD then
      (if absSpeed > (95 / 10) * scale then true else brake)
    else brake
  let accelerate :=
    if tileTypeEnum = TileType.TT_CORNER_90 then
      (if absSpeed > 7 * scale then false else accelerate)
    else accelerate
  let accelerate :=
    if tileTypeEnum = TileType.TT_CORNER_45_LEFT ∨ tileTypeEnum = TileType.TT_CORNER_45_RIGHT then
      (if absSpeed > (83 / 10) * scale then false else accelerate)
    else accelerate
  let accelerate :=
    if isRaceCompleted then
      (if absSpeed > 5 then false else accelerate)
    else
      (if absSpeed < (36 / 10) * scale then true else accelerate)
  let brake :=
    if isRaceCompleted then brake
    else (if absSpeed < (36 / 10) * scale then false else brake)
  if brake then
    { acceleratorEnabled := false, brakeEnabled := true }
  else if accelerate then
    { acceleratorEnabled := true, brakeEnabled := false }
  else
    { acceleratorEnabled := false, brakeEnabled := false }

end SpeedDefs

section SpeedFlags

/-- The value of the local `brake` of `AI::speedControl` when the final `if` chain is reached. -/
def brakeFlag (computerHint : ComputerHint) (absSpeed : ℚ) (isRaceCompleted : Bool) : Bool :=
  let brake := false
  let scale : ℚ := 9 / 10
  let brake :=
    if computerHint = ComputerHint.CH_BRAKE then
      (if absSpeed > 14 * scale then true else brake)
    else brake
  let brake :=
    if computerHint = ComputerHint.CH_BRAKE_HARD then
      (if absSpeed > (95 / 10) * scale then true else brake)
    else brake
  if isRaceCompleted then brake
  else (if absSpeed < (36 / 10) * scale then false else brake)

/-- The value of the local `accelerate` of `AI::speedControl` when the final `if` chain is
reached. -/
def accelerateFlag (tileTypeEnum : TileType) (absSpeed : ℚ) (isRaceCompleted : Bool) : Bool :=
  let accelerate := true
  let scale : ℚ := 9 / 10
  let accelerate :=
    if tileTypeEnum = TileType.TT_CORNER_90 then
      (if absSpeed > 7 * scale then false else accelerate)
    else accelerate
  let accelerate :=
    if tileTypeEnum = TileType.TT_CORNER_45_LEFT ∨ tileTypeEnum = TileType.TT_CORNER_45_RIGHT then
      (if absSpeed > (83 / 10) * scale then false else accelerate)
    else accelerate
  if isRaceCompleted then
    (if absSpeed > 5 then false else accelerate)
  else
    (if absSpeed < (36 / 10) * scale then true else accelerate)

/-- The final `if` chain of `AI::speedControl`. -/
def selectControls (brake accelerate : Bool) : CarControls :=
  if brake then
    { acceleratorEnabled := false, brakeEnabled := true }
  else if accelerate then
    { acceleratorEnabled := true, brakeEnabled := false }
  else
    { acceleratorEnabled := false, brakeEnabled := false }

end SpeedFlags

/-! ## Text dimensions (`mctexturetext.cc`)

Floating-point values are embedded as elements of a linearly ordered ring (exact arithmetic);
the `std::wstring` is a list of characters. -/

section TextDefs

variable {T : Type}

/-- The data members of `MCTextureText` that `updateTextDimensions` reads and writes. -/
structure MCTextureText (T : Type) where
  m_text : List Char
  m_glyphWidth : T
  m_glyphHeight : T
  m_textWidth : T
  m_textHeight : T
deriving DecidableEq

/-- The `for` loop of `MCTextureText::updateTextDimensions` over the remaining characters,
with the locals `maxLength`, `length` and the member `m_textHeight` as state. -/
def updateTextDimensionsLoop [LinearOrderedRing T] (glyphWidth glyphHeight : T) :
    List Char → T → T → T → T × T × T
  | [], maxLength, length, textHeight => (maxLength, length, textHeight)
  | c :: rest, maxLength, length, textHeight =>
    if c = '\n' then
      updateTextDimensionsLoop glyphWidth glyphHeight rest maxLength 0 (textHeight + glyphHeight)
    else
      updateTextDimensionsLoop glyphWidth glyphHeight rest
        (if length + glyphWidth > maxLength then length + glyphWidth else maxLength)
        (length + glyphWidth) textHeight

/-- The method `MCTextureText::updateTextDimensions`. -/
def MCTextureText.updateTextDimensions [LinearOrderedRing T] (t : MCTextureText T) :
    MCTextureText T :=
  { t with
    m_textHeight :=
      (updateTextDimensionsLoop t.m_glyphWidth t.m_glyphHeight t.m_text 0 0 t.m_glyphHeight).2.2
    m_textWidth :=
      (updateTextDimensionsLoop t.m_glyphWidth t.m_glyphHeight t.m_text 0 0 t.m_glyphHeight).1 }

/-- The method `MCTextureText::setText`. -/
def MCTextureText.setText [LinearOrderedRing T] (t : MCTextureText T) (text : List Char) :
    MCTextureText T :=
  ({ t with m_text := text }).updateTextDimensions

/-- The method `MCTextureText::setGlyphSize`. -/
def MCTextureText.setGlyphSize [LinearOrderedRing T] (t : MCTextureText T) (width height : T) :
    MCTextureText T :=
  ({ t with m_glyphWidth := width, m_glyphHeight := height }).updateTextDimensions

/-- The number of newline characters in a text. -/
def newlineCount (text : List Char) : Nat := text.count '\n'

/-- The length of the longest run of non-newline characters between newlines: the text is cut
at its newline characters and the longest piece is measured. -/
def longestRun (text : List Char) : Nat :=
  ((text.splitOn '\n').map List.length).foldr max 0

/-- The loop of `updateTextDimensions` counted in characters instead of glyph widths: `best`
is the longest run seen so far and `cur` the length of the run being read. -/
def runLoop : List Char → Nat → Nat → Nat
  | [], best, _ => best
  | c :: rest, best, cur =>
    if c = '\n' then runLoop rest best 0 else runLoop rest (max best (cur + 1)) (cur + 1)

/-- A two line text, `ab` and `cde`, ending in a newline, with glyphs of size 2 by 3. -/
def sampleText : MCTextureText ℚ :=
  { m_text := ['a', 'b', '\n', 'c', 'd', 'e', '\n']
    m_glyphWidth := 2
    m_glyphHeight := 3
    m_textWidth := 0
    m_textHeight := 0 }

end TextDefs

/-! ## The steering loop on binary32 values

`diff` is a `float` in `AI::steerControl`. Where the rounding of `diff - 360` and `diff + 360`
decides whether the loop ends, the loop is also embedded with that rounding. -/

section Binary32Defs

/-- Rounding of a rational to the nearest integer, ties to the even one (the IEEE 754 default
rounding direction). -/
def roundHalfEven (q : ℚ) : ℤ :=
  if q - ⌊q⌋ < 1 / 2 then ⌊q⌋
  else if 1 / 2 < q - ⌊q⌋ then ⌊q⌋ + 1
  else if ⌊q⌋ % 2 = 0 then ⌊q⌋ else ⌊q⌋ + 1

/-- The binary32 (`float`) value nearest to a rational: 24 significant bits, exponent of the
last place at least -149, ties to even. Overflow to infinity (from `2^128` on) is not
modelled. -/
def roundBinary32 (x : ℚ) : ℚ :=
  if x = 0 then 0
  else
    (roundHalfEven (x / 2 ^ (max (Int.log 2 |x|) (-126) - 23)) : ℚ) *
      2 ^ (max (Int.log 2 |x|) (-126) - 23)

/-- The rational is a finite binary32 (`float`) value: an integer significand below `2^24`
times a power of two with exponent at least -149. -/
def IsBinary32 (x : ℚ) : Prop :=
  ∃ m k : ℤ, |m| < 2 ^ 24 ∧ -149 ≤ k ∧ x = m * 2 ^ k

/-- The normalisation loop of `AI::steerControl` with `diff` as the `float` it is in the
source: `diff - 360` and `diff + 360` are rounded to binary32. `fuel` bounds the number of
loop iterations; `none` means the bound was reached. -/
def normalizeDiffBinary32 : Nat → ℚ → Option ℚ
  | 0, _ => none
  | fuel + 1, diff =>
    if diff > 180 then normalizeDiffBinary32 fuel (roundBinary32 (diff - 360))
    else if diff < -180 then normalizeDiffBinary32 fuel (roundBinary32 (diff + 360))
    else some diff

end Binary32Defs

/-! ## Basic lemmas -/

section Basic

variable {T : Type}

@[simp]
theorem MCVector2d.add_i [Add T] (a b : MCVector2d T) : (a + b).i = a.i + b.i := rfl
@[simp]
theorem MCVector2d.add_j [Add T] (a b : MCVector2d T) : (a + b).j = a.j + b.j := rfl
@[simp]
theorem MCVector2d.sub_i [Sub T] (a b : MCVector2d T) : (a - b).i = a.i - b.i := rfl
@[simp]
theorem MCVector2d.sub_j [Sub T] (a b : MCVector2d T) : (a - b).j = a.j - b.j := rfl

theorem MCVector2d.ext_iff2 (a b : MCVector2d T) : a = b ↔ a.i = b.i ∧ a.j = b.j := by
  cases a; cases b; simp

@[simp]
theorem MCOBBox.vertex_zero [Add T] (b : MCOBBox T) : b.vertex 0 = b.m_v0 + b.m_p := rfl
@[simp]
theorem MCOBBox.vertex_one [Add T] (b : MCOBBox T) : b.vertex 1 = b.m_v1 + b.m_p := rfl
@[simp]
theorem MCOBBox.vertex_two [Add T] (b : MCOBBox T) : b.vertex 2 = b.m_v2 + b.m_p := rfl
@[simp]
theorem MCOBBox.vertex_three [Add T] (b : MCOBBox T) : b.vertex 3 = b.m_v3 + b.m_p := rfl

theorem MCMathUtil.sign_of_neg [LinearOrderedRing T] (z : SIGN) {x : T} (h : x < 0) :
    MCMathUtil.sign z x = SIGN.NEG := by
  simp [MCMathUtil.sign, h]

theorem MCMathUtil.sign_of_pos [LinearOrderedRing T] (z : SIGN) {x : T} (h : 0 < x) :
    MCMathUtil.sign z x = SIGN.POS := by
  simp [MCMathUtil.sign, h, not_lt.mpr h.le]

/-- Two values with the same `sign` are never strictly on opposite sides of zero. -/
theorem MCMathUtil.same_side_of_sign_eq [LinearOrderedRing T] (z : SIGN) {x y : T}
    (h : MCMathUtil.sign z x = MCMathUtil.sign z y) :
    (x ≤ 0 ∧ y ≤ 0) ∨ (0 ≤ x ∧ 0 ≤ y) := by
  rcases lt_trichotomy x 0 with hx | hx | hx
  · rcases lt_or_le 0 y with hy | hy
    · rw [MCMathUtil.sign_of_neg z hx, MCMathUtil.sign_of_pos z hy] at h
      exact absurd h (by decide)
    · exact Or.inl ⟨hx.le, hy⟩
  · rcases le_total y 0 with hy | hy
    · exact Or.inl ⟨hx.le, hy⟩
    · exact Or.inr ⟨hx.ge, hy⟩
  · rcases lt_or_le y 0 with hy | hy
    · rw [MCMathUtil.sign_of_pos z hx, MCMathUtil.sign_of_neg z hy] at h
      exact absurd h (by decide)
    · exact Or.inr ⟨hx.le, hy⟩

theorem MCOBBox.contains_eq_true_iff [LinearOrderedRing T] (z : SIGN) (b : MCOBBox T)
    (p : MCVector2d T) :
    b.contains z p = true ↔
      MCMathUtil.sign z (b.edgeCross p 1) = MCMathUtil.sign z (b.edgeCross p 0) ∧
      MCMathUtil.sign z (b.edgeCross p 2) = MCMathUtil.sign z (b.edgeCross p 0) ∧
      MCMathUtil.sign z (b.edgeCross p 3) = MCMathUtil.sign z (b.edgeCross p 0) := by
  simp [MCOBBox.contains, MCOBBox.edgeCross]

end Basic

/-! ## Containment -/

section Containment

variable {T : Type}

/-- Twice the signed area spanned by the vertex vectors `v0`, `v1`; all four edge cross
products are affine in the point with this as their scale. -/
theorem MCOBBox.edgeCross_rectPoint [LinearOrderedCommRing T] (b : MCOBBox T)
    (h2 : b.m_v2 = ⟨-b.m_v0.i, -b.m_v0.j⟩) (h3 : b.m_v3 = ⟨-b.m_v1.i, -b.m_v1.j⟩) (s t : T) :
    b.edgeCross (rectPoint b s t) 0 = -(2 * t * b.m_v0.cross b.m_v1) ∧
    b.edgeCross (rectPoint b s t) 1 = -(2 * (1 - s) * b.m_v0.cross b.m_v1) ∧
    b.edgeCross (rectPoint b s t) 2 = -(2 * (1 - t) * b.m_v0.cross b.m_v1) ∧
    b.edgeCross (rectPoint b s t) 3 = -(2 * s * b.m_v0.cross b.m_v1) := by
  simp only [MCOBBox.edgeCross, rectPoint, MCVector2d.cross, MCVector2d.sub_i, MCVector2d.sub_j,
    MCOBBox.vertex_zero, MCOBBox.vertex_one, MCOBBox.vertex_three, MCVector2d.add_i,
    MCVector2d.add_j, h2, h3]
  refine ⟨?_, ?_, ?_, ?_⟩ <;> ring

/-- A rectangle with positive half extents is not degenerate: the vertex vectors `v0`, `v1`
span a non-zero area. -/
theorem IsRectangle.cross_ne_zero [LinearOrderedCommRing T] {b : MCOBBox T}
    (hrect : IsRectangle b) (hhx : 0 < b.m_hx) (hhy : 0 < b.m_hy) :
    b.m_v0.cross b.m_v1 ≠ 0 := by
  intro hD
  have hh := hrect.height
  have hw := hrect.width
  have hr := hrect.right
  simp only [dot, MCVector2d.sub_i, MCVector2d.sub_j, hrect.mirror3] at hh hw hr
  simp only [MCVector2d.cross] at hD
  have lagrange :
      (2 * (b.m_v0.i * b.m_v1.j - b.m_v0.j * b.m_v1.i)) ^ 2 =
        ((b.m_v1.i - b.m_v0.i) * (b.m_v1.i - b.m_v0.i) +
            (b.m_v1.j - b.m_v0.j) * (b.m_v1.j - b.m_v0.j)) *
          ((-b.m_v1.i - b.m_v0.i) * (-b.m_v1.i - b.m_v0.i) +
            (-b.m_v1.j - b.m_v0.j) * (-b.m_v1.j - b.m_v0.j)) -
        ((b.m_v1.i - b.m_v0.i) * (-b.m_v1.i - b.m_v0.i) +
            (b.m_v1.j - b.m_v0.j) * (-b.m_v1.j - b.m_v0.j)) ^ 2 := by
    ring
  rw [hh, hw, hr, hD] at lagrange
  have hpos : 0 < 2 * b.m_hy * (2 * b.m_hy) * (2 * b.m_hx * (2 * b.m_hx)) := by positivity
  have hzero : 2 * b.m_hy * (2 * b.m_hy) * (2 * b.m_hx * (2 * b.m_hx)) = 0 := by
    have := lagrange.symm
    simpa using this
  exact absurd hzero hpos.ne'

/-- The constructor produces a rectangle in the sense of `IsRectangle`. -/
theorem IsRectangle.of_mk0 [LinearOrderedCommRing T] (hx hy : T) (loc : MCVector2d T) :
    IsRectangle (MCOBBox.mk0 hx hy loc) := by
  constructor <;> simp only [MCOBBox.mk0, dot, MCVector2d.sub_i, MCVector2d.sub_j, neg_neg] <;>
    ring

/-- A `rotate` through table entries with `cos² + sin² = 1` keeps a rectangle a rectangle. -/
theorem IsRectangle.rotate [LinearOrderedCommRing T] (tr : MCTrigonom T) {b : MCOBBox T}
    (hrect : IsRectangle b) (a : Nat)
    (hunit : tr.cosLut a * tr.cosLut a + tr.sinLut a * tr.sinLut a = 1) :
    IsRectangle (b.rotate tr a) := by
  unfold MCOBBox.rotate
  split
  · have hh := hrect.height
    have hw := hrect.width
    have hr := hrect.right
    simp only [dot, MCVector2d.sub_i, MCVector2d.sub_j, hrect.mirror3] at hh hw hr
    constructor
    · rfl
    · rfl
    · simp only [dot, MCVector2d.sub_i, MCVector2d.sub_j, MCTrigonom.rotatedX,
        MCTrigonom.rotatedY]
      rw [← hh]
      linear_combination
        ((b.m_v1.i - b.m_v0.i) * (b.m_v1.i - b.m_v0.i) +
          (b.m_v1.j - b.m_v0.j) * (b.m_v1.j - b.m_v0.j)) * hunit
    · simp only [dot, MCVector2d.sub_i, MCVector2d.sub_j, MCTrigonom.rotatedX,
        MCTrigonom.rotatedY]
      rw [← hw]
      linear_combination
        ((-b.m_v1.i - b.m_v0.i) * (-b.m_v1.i - b.m_v0.i) +
          (-b.m_v1.j - b.m_v0.j) * (-b.m_v1.j - b.m_v0.j)) * hunit
    · simp only [dot, MCVector2d.sub_i, MCVector2d.sub_j, MCTrigonom.rotatedX,
        MCTrigonom.rotatedY]
      rw [← hr]
      linear_combination
        ((b.m_v1.i - b.m_v0.i) * (-b.m_v1.i - b.m_v0.i) +
          (b.m_v1.j - b.m_v0.j) * (-b.m_v1.j - b.m_v0.j)) * hunit
  · exact hrect

/-- Inside direction of the containment test, for any non-degenerate box state whose vertex
vectors are `v0, v1, -v0, -v1`. -/
theorem MCOBBox.contains_of_strictlyInside [LinearOrderedCommRing T] (z : SIGN) (b : MCOBBox T)
    (h2 : b.m_v2 = ⟨-b.m_v0.i, -b.m_v0.j⟩) (h3 : b.m_v3 = ⟨-b.m_v1.i, -b.m_v1.j⟩)
    (hD : b.m_v0.cross b.m_v1 ≠ 0) (p : MCVector2d T) (hp : StrictlyInside b p) :
    b.contains z p = true := by
  obtain ⟨s, t, hs0, hs1, ht0, ht1, rfl⟩ := hp
  obtain ⟨c0, c1, c2, c3⟩ := MCOBBox.edgeCross_rectPoint b h2 h3 s t
  rw [MCOBBox.contains_eq_true_iff, c0, c1, c2, c3]
  have hs1' : 0 < 1 - s := sub_pos.mpr hs1
  have ht1' : 0 < 1 - t := sub_pos.mpr ht1
  rcases lt_or_gt_of_ne hD with hneg | hpos
  · have e0 : 0 < -(2 * t * b.m_v0.cross b.m_v1) := by
      have := mul_neg_of_pos_of_neg (mul_pos two_pos ht0) hneg
      linarith
    have e1 : 0 < -(2 * (1 - s) * b.m_v0.cross b.m_v1) := by
      have := mul_neg_of_pos_of_neg (mul_pos two_pos hs1') hneg
      linarith
    have e2 : 0 < -(2 * (1 - t) * b.m_v0.cross b.m_v1) := by
      have := mul_neg_of_pos_of_neg (mul_pos two_pos ht1') hneg
      linarith
    have e3 : 0 < -(2 * s * b.m_v0.cross b.m_v1) := by
      have := mul_neg_of_pos_of_neg (mul_pos two_pos hs0) hneg
      linarith
    simp [MCMathUtil.sign_of_pos z e0, MCMathUtil.sign_of_pos z e1, MCMathUtil.sign_of_pos z e2,
      MCMathUtil.sign_of_pos z e3]
  · have e0 : -(2 * t * b.m_v0.cross b.m_v1) < 0 := by
      have := mul_pos (mul_pos two_pos ht0) hpos
      linarith
    have e1 : -(2 * (1 - s) * b.m_v0.cross b.m_v1) < 0 := by
      have := mul_pos (mul_pos two_pos hs1') hpos
      linarith
    have e2 : -(2 * (1 - t) * b.m_v0.cross b.m_v1) < 0 := by
      have := mul_pos (mul_pos two_pos ht1') hpos
      linarith
    have e3 : -(2 * s * b.m_v0.cross b.m_v1) < 0 := by
      have := mul_pos (mul_pos two_pos hs0) hpos
      linarith
    simp [MCMathUtil.sign_of_neg z e0, MCMathUtil.sign_of_neg z e1, MCMathUtil.sign_of_neg z e2,
      MCMathUtil.sign_of_neg z e3]

/-- Opposite edges: the cross products of a point against two opposite edges always add up
to the same value, whatever the point. -/
theorem MCOBBox.edgeCross_opposite [LinearOrderedCommRing T] (b : MCOBBox T)
    (h2 : b.m_v2 = ⟨-b.m_v0.i, -b.m_v0.j⟩) (h3 : b.m_v3 = ⟨-b.m_v1.i, -b.m_v1.j⟩)
    (p : MCVector2d T) :
    b.edgeCross p 0 + b.edgeCross p 2 = -(2 * b.m_v0.cross b.m_v1) ∧
    b.edgeCross p 1 + b.edgeCross p 3 = -(2 * b.m_v0.cross b.m_v1) := by
  simp only [MCOBBox.edgeCross, MCVector2d.cross, MCVector2d.sub_i, MCVector2d.sub_j, h2, h3]
  constructor <;> ring

/-- Two values on the same side of zero whose sum is `E ≠ 0` are both a fraction of `E`
between 0 and 1. -/
theorem unit_fraction_of_same_side [LinearOrderedField T] {x y E : T}
    (hside : (x ≤ 0 ∧ y ≤ 0) ∨ (0 ≤ x ∧ 0 ≤ y)) (hsum : x + y = E) (hE : E ≠ 0) :
    0 ≤ x / E ∧ x / E ≤ 1 := by
  have hx : 0 ≤ x / E := by
    rw [div_nonneg_iff]
    rcases hside with ⟨h1, h2⟩ | ⟨h1, h2⟩
    · exact Or.inr ⟨h1, by linarith⟩
    · exact Or.inl ⟨h1, by linarith⟩
  have hy : 0 ≤ y / E := by
    rw [div_nonneg_iff]
    rcases hside with ⟨h1, h2⟩ | ⟨h1, h2⟩
    · exact Or.inr ⟨h2, by linarith⟩
    · exact Or.inl ⟨h2, by linarith⟩
  have hone : x / E + y / E = 1 := by
    rw [← add_div, hsum, div_self hE]
  exact ⟨hx, by linarith⟩

/-- Clearing the denominator `E` of an affine combination with coefficients `c / E`. -/
theorem eq_affine_of_mul_eq [LinearOrderedField T] {x A B C c d E : T} (hE : E ≠ 0)
    (h : x * E = A * E + c * B + d * C) : x = A + c / E * B + d / E * C := by
  field_simp
  linarith

/-- Outside direction of the containment test: a point accepted by `contains` lies in the
closed rectangle. -/
theorem MCOBBox.inRectangle_of_contains [LinearOrderedField T] (z : SIGN) (b : MCOBBox T)
    (h2 : b.m_v2 = ⟨-b.m_v0.i, -b.m_v0.j⟩) (h3 : b.m_v3 = ⟨-b.m_v1.i, -b.m_v1.j⟩)
    (hD : b.m_v0.cross b.m_v1 ≠ 0) (p : MCVector2d T) (hc : b.contains z p = true) :
    InRectangle b p := by
  rw [MCOBBox.contains_eq_true_iff] at hc
  obtain ⟨s1, s2, s3⟩ := hc
  obtain ⟨sum02, sum13⟩ := MCOBBox.edgeCross_opposite b h2 h3 p
  have hE : -(2 * b.m_v0.cross b.m_v1) ≠ 0 := by
    intro h
    apply hD
    linarith
  have side02 := MCMathUtil.same_side_of_sign_eq z s2.symm
  have side31 := MCMathUtil.same_side_of_sign_eq z (s3.trans s1.symm)
  have ht := unit_fraction_of_same_side side02 sum02 hE
  have hs := unit_fraction_of_same_side side31 (by rw [add_comm]; exact sum13) hE
  refine ⟨_, _, hs.1, hs.2, ht.1, ht.2, ?_⟩
  rw [MCVector2d.ext_iff2]
  simp only [MCVector2d.cross] at hE
  simp only [MCOBBox.edgeCross, rectPoint, MCVector2d.cross, MCVector2d.sub_i, MCVector2d.sub_j,
    MCOBBox.vertex_zero, MCOBBox.vertex_one, MCOBBox.vertex_three, MCVector2d.add_i,
    MCVector2d.add_j, h2, h3]
  constructor
  · apply eq_affine_of_mul_eq hE
    ring
  · apply eq_affine_of_mul_eq hE
    ring

end Containment

/-! ## Intersection -/

section Intersection

variable {T : Type}

theorem MCOBBox.m_v_cases (b : MCOBBox T) (k : Nat) :
    b.m_v k = b.m_v0 ∨ b.m_v k = b.m_v1 ∨ b.m_v k = b.m_v2 ∨ b.m_v k = b.m_v3 := by
  unfold MCOBBox.m_v
  split <;> simp

/-- The test `intersects` performs: one of the eight `contains` calls on the vertex vectors
`m_v[0..3]` of one box, against the other box, succeeds. -/
theorem MCOBBox.intersects_eq_true_iff [LinearOrderedRing T] (z : SIGN) (a r : MCOBBox T) :
    a.intersects z r = true ↔
      (r.contains z a.m_v0 = true ∨ r.contains z a.m_v1 = true ∨
        r.contains z a.m_v2 = true ∨ r.contains z a.m_v3 = true) ∨
      (a.contains z r.m_v0 = true ∨ a.contains z r.m_v1 = true ∨
        a.contains z r.m_v2 = true ∨ a.contains z r.m_v3 = true) := by
  unfold MCOBBox.intersects
  by_cases h1 : (r.contains z a.m_v0 || r.contains z a.m_v1 ||
      r.contains z a.m_v2 || r.contains z a.m_v3) = true
  · rw [if_pos h1]
    simp only [Bool.or_eq_true] at h1
    simp only [true_iff]
    left
    tauto
  · rw [if_neg h1]
    simp only [Bool.or_eq_true] at h1
    by_cases h2 : (a.contains z r.m_v0 || a.contains z r.m_v1 ||
        a.contains z r.m_v2 || a.contains z r.m_v3) = true
    · rw [if_pos h2]
      simp only [Bool.or_eq_true] at h2
      simp only [true_iff]
      right
      tauto
    · rw [if_neg h2]
      simp only [Bool.or_eq_true] at h2
      constructor
      · intro h
        exact absurd h (by decide)
      · intro h
        exfalso
        tauto

/-- With the location at the origin, a world-space vertex is the stored vertex vector. -/
theorem MCOBBox.vertex_of_origin [LinearOrderedRing T] (b : MCOBBox T) (h : b.m_p = ⟨0, 0⟩)
    (k : Nat) : b.vertex k = b.m_v (k &&& 3) := by
  rw [MCVector2d.ext_iff2]
  simp [MCOBBox.vertex, h]

theorem stdMin_eq_min [LinearOrder T] (a b : T) : stdMin a b = min a b := by
  unfold stdMin
  split
  · rename_i h
    exact (min_eq_right h.le).symm
  · rename_i h
    exact (min_eq_left (not_lt.mp h)).symm

theorem stdMax_eq_max [LinearOrder T] (a b : T) : stdMax a b = max a b := by
  unfold stdMax
  split
  · rename_i h
    exact (max_eq_right h.le).symm
  · rename_i h
    exact (max_eq_left (not_lt.mp h)).symm

/-- The nested minimum computed by `bbox()` is one of its four arguments. -/
theorem four_min_cases [LinearOrder T] (a b c d : T) :
    stdMin (stdMin a b) (stdMin c d) = a ∨ stdMin (stdMin a b) (stdMin c d) = b ∨
      stdMin (stdMin a b) (stdMin c d) = c ∨ stdMin (stdMin a b) (stdMin c d) = d := by
  unfold stdMin
  split_ifs <;> simp

/-- The nested maximum computed by `bbox()` is one of its four arguments. -/
theorem four_max_cases [LinearOrder T] (a b c d : T) :
    stdMax (stdMax a b) (stdMax c d) = a ∨ stdMax (stdMax a b) (stdMax c d) = b ∨
      stdMax (stdMax a b) (stdMax c d) = c ∨ stdMax (stdMax a b) (stdMax c d) = d := by
  unfold stdMax
  split_ifs <;> simp

end Intersection

/-! ## Reachable states -/

section ReachableStates

variable {T : Type}

/-- Every reachable state has `m_v[2] = -m_v[0]` and `m_v[3] = -m_v[1]`. -/
theorem MCOBBox.Reachable.mirror [CommRing T] {tr : MCTrigonom T} {b : MCOBBox T}
    (h : MCOBBox.Reachable tr b) :
    b.m_v2 = ⟨-b.m_v0.i, -b.m_v0.j⟩ ∧ b.m_v3 = ⟨-b.m_v1.i, -b.m_v1.j⟩ := by
  induction h with
  | ctor hx hy loc =>
    simp [MCOBBox.mk0]
  | rotate b a _ ih =>
    unfold MCOBBox.rotate
    split
    · exact ⟨rfl, rfl⟩
    · exact ih
  | translate b p _ ih =>
    exact ih
  | scale b s _ ih =>
    obtain ⟨h2, h3⟩ := ih
    simp only [MCOBBox.scale, MCVector2d.scaled, h2, h3]
    constructor <;> rw [MCVector2d.ext_iff2] <;> constructor <;> ring

end ReachableStates

/-! ## Friction generator lemmas -/

section FrictionLemmas

variable {T : Type}

/-- Adding torque does not touch the accumulated force, the mass or the velocities. -/
theorem MCFrictionGenerator.updateForce_forces [LinearOrderedField T] (ops : FastVectorOps T)
    (g : MCFrictionGenerator T) (o : MCObject T) :
    (g.updateForce ops o).physicsComponent.forces = o.physicsComponent.forces +
      (if 1 ≤ ops.lengthFast o.physicsComponent.velocity then
        (((ops.normalizedFast o.physicsComponent.velocity).neg.scaled g.m_coeffLinTot).scaled
          o.physicsComponent.mass)
      else
        ((((ops.normalizedFast o.physicsComponent.velocity).neg.scaled
          (ops.lengthFast o.physicsComponent.velocity)).scaled g.m_coeffLinTot).scaled
            o.physicsComponent.mass)) := by
  unfold MCFrictionGenerator.updateForce
  simp only [MCPhysicsComponent.addForce, MCPhysicsComponent.addTorque]
  split_ifs <;> rfl

/-- The torque after `updateForce`, as a function of the angular velocity and the shape. -/
theorem MCFrictionGenerator.updateForce_torque [LinearOrderedField T] (ops : FastVectorOps T)
    (g : MCFrictionGenerator T) (o : MCObject T) :
    (g.updateForce ops o).physicsComponent.torque = o.physicsComponent.torque +
      (if o.hasShape = true then
        (if 0 < o.physicsComponent.angularVelocity then
          -g.m_coeffRotTot * o.physicsComponent.mass * 1
        else if o.physicsComponent.angularVelocity < 0 then
          g.m_coeffRotTot * o.physicsComponent.mass * 1
        else 0)
      else 0) := by
  unfold MCFrictionGenerator.updateForce
  simp only [MCPhysicsComponent.addForce, MCPhysicsComponent.addTorque]
  split_ifs <;> simp_all <;> linarith

/-- The members `updateForce` never writes. -/
theorem MCFrictionGenerator.updateForce_unchanged [LinearOrderedField T] (ops : FastVectorOps T)
    (g : MCFrictionGenerator T) (o : MCObject T) :
    (g.updateForce ops o).physicsComponent.mass = o.physicsComponent.mass ∧
    (g.updateForce ops o).physicsComponent.velocity = o.physicsComponent.velocity ∧
    (g.updateForce ops o).physicsComponent.angularVelocity =
      o.physicsComponent.angularVelocity ∧
    (g.updateForce ops o).hasShape = o.hasShape := by
  unfold MCFrictionGenerator.updateForce
  simp only [MCPhysicsComponent.addForce, MCPhysicsComponent.addTorque]
  split_ifs <;> simp

end FrictionLemmas

/-! ## Collision state lemmas -/

section CollisionLemmas

theorem runTicks_append (xs ys : List Bool) (s : CollisionState) :
    runTicks (xs ++ ys) s =
      ((runTicks ys (runTicks xs s).1).1, (runTicks xs s).2 ++ (runTicks ys (runTicks xs s).1).2) := by
  induction xs generalizing s with
  | nil => simp [runTicks]
  | cons x xs ih => simp [runTicks, ih]

/-- Ticks without overlap leave an absent pair absent and fire nothing. -/
theorem runTicks_apart (n : Nat) :
    runTicks (List.replicate n false) CollisionState.absent =
      (CollisionState.absent, List.replicate n []) := by
  induction n with
  | zero => simp [runTicks]
  | succ n ih =>
    simp [List.replicate_succ, runTicks, collisionTick, detectCollisions,
      iterateCurrentCollisions, ih]

/-- Ticks with overlap leave a present pair present and fire nothing. -/
theorem runTicks_touching (n : Nat) :
    runTicks (List.replicate n true) CollisionState.present =
      (CollisionState.present, List.replicate n []) := by
  induction n with
  | zero => simp [runTicks]
  | succ n ih =>
    simp [List.replicate_succ, runTicks, collisionTick, detectCollisions,
      iterateCurrentCollisions, ih]

end CollisionLemmas

/-! ## Steering lemmas -/

section SteeringLemmas

/-- The normalisation loop ends within `n + 1` rounds when `|diff| ≤ 180 + 360 * n`, with a
result in `[-180, 180]`. -/
theorem normalizeDiff_of_bound (n : Nat) (d : ℚ) (h : |d| ≤ 180 + 360 * n) :
    ∃ r, normalizeDiff (n + 1) d = some r ∧ -180 ≤ r ∧ r ≤ 180 := by
  induction n generalizing d with
  | zero =>
    rw [abs_le] at h
    norm_num at h
    refine ⟨d, ?_, h.1, h.2⟩
    simp [normalizeDiff, not_lt.mpr h.2, not_lt.mpr h.1]
  | succ n ih =>
    rw [abs_le] at h
    push_cast at h
    by_cases h1 : d > 180
    · have hb : |d - 360| ≤ 180 + 360 * (n : ℚ) := by
        rw [abs_le]
        have hn : (0 : ℚ) ≤ n := Nat.cast_nonneg n
        constructor <;> linarith [h.1, h.2]
      obtain ⟨r, hr, hlo, hhi⟩ := ih (d - 360) hb
      refine ⟨r, ?_, hlo, hhi⟩
      rw [normalizeDiff, if_pos h1]
      exact hr
    · by_cases h2 : d < -180
      · have hb : |d + 360| ≤ 180 + 360 * (n : ℚ) := by
          rw [abs_le]
          have hn : (0 : ℚ) ≤ n := Nat.cast_nonneg n
          constructor <;> linarith [h.1, h.2]
        obtain ⟨r, hr, hlo, hhi⟩ := ih (d + 360) hb
        refine ⟨r, ?_, hlo, hhi⟩
        rw [normalizeDiff, if_neg h1, if_pos h2]
        exact hr
      · refine ⟨d, ?_, not_lt.mp h2, not_lt.mp h1⟩
        rw [normalizeDiff, if_neg h1, if_neg h2]

/-- The normalisation loop ends for every rational difference. -/
theorem normalizeDiff_terminates (d : ℚ) :
    ∃ fuel r, normalizeDiff fuel d = some r ∧ -180 ≤ r ∧ r ≤ 180 := by
  have hceil : |d| ≤ (⌈|d|⌉₊ : ℚ) := Nat.le_ceil _
  have hn : (0 : ℚ) ≤ (⌈|d|⌉₊ : ℚ) := Nat.cast_nonneg _
  obtain ⟨r, hr⟩ := normalizeDiff_of_bound ⌈|d|⌉₊ d (by linarith)
  exact ⟨_, r, hr⟩

/-- The truncating remainder `x % 360` of C++ lies strictly between -360 and 360. -/
theorem tmod_360_bounds (x : Int) : -360 < Int.tmod x 360 ∧ Int.tmod x 360 < 360 := by
  refine ⟨?_, Int.tmod_lt_of_pos x (by decide)⟩
  cases x with
  | ofNat m =>
    have h0 : (0 : Int) ≤ Int.tmod (Int.ofNat m) 360 := Int.tmod_nonneg 360 (Int.ofNat_nonneg m)
    omega
  | negSucc m =>
    show -360 < -((Nat.succ m % 360 : Nat) : Int)
    omega

/-- Whenever the normalisation loop returns, the result lies in `[-180, 180]` and differs from
the initial difference by an integer multiple of 360. -/
theorem normalizeDiff_result (fuel : Nat) (d r : ℚ) (h : normalizeDiff fuel d = some r) :
    -180 ≤ r ∧ r ≤ 180 ∧ ∃ k : ℤ, r - d = 360 * k := by
  induction fuel generalizing d with
  | zero => simp [normalizeDiff] at h
  | succ n ih =>
    rw [normalizeDiff] at h
    split_ifs at h with h1 h2
    · obtain ⟨hlo, hhi, k, hk⟩ := ih (d - 360) h
      refine ⟨hlo, hhi, k - 1, ?_⟩
      push_cast
      linarith
    · obtain ⟨hlo, hhi, k, hk⟩ := ih (d + 360) h
      refine ⟨hlo, hhi, k + 1, ?_⟩
      push_cast
      linarith
    · simp only [Option.some.injEq] at h
      subst h
      exact ⟨not_lt.mp h2, not_lt.mp h1, 0, by simp⟩

end SteeringLemmas

/-! ## Speed control lemmas -/

section SpeedLemmas

theorem speedControl_eq (computerHint : ComputerHint) (tileTypeEnum : TileType)
    (absSpeed : ℚ) (isRaceCompleted : Bool) :
    speedControl computerHint tileTypeEnum absSpeed isRaceCompleted =
      selectControls (brakeFlag computerHint absSpeed isRaceCompleted)
        (accelerateFlag tileTypeEnum absSpeed isRaceCompleted) := rfl

theorem selectControls_not_both (brake accelerate : Bool) :
    ¬ ((selectControls brake accelerate).acceleratorEnabled = true ∧
      (selectControls brake accelerate).brakeEnabled = true) := by
  cases brake <;> cases accelerate <;> simp [selectControls]

theorem selectControls_brake (brake accelerate : Bool) :
    (selectControls brake accelerate).brakeEnabled = brake := by
  cases brake <;> cases accelerate <;> simp [selectControls]

theorem selectControls_accelerator (brake accelerate : Bool) :
    (selectControls brake accelerate).acceleratorEnabled = (!brake && accelerate) := by
  cases brake <;> cases accelerate <;> simp [selectControls]

theorem brakeFlag_true (computerHint : ComputerHint) (absSpeed : ℚ) (isRaceCompleted : Bool)
    (h : brakeFlag computerHint absSpeed isRaceCompleted = true) :
    (computerHint = ComputerHint.CH_BRAKE ∧ absSpeed > 14 * (9 / 10)) ∨
      (computerHint = ComputerHint.CH_BRAKE_HARD ∧ absSpeed > (95 / 10) * (9 / 10)) := by
  unfold brakeFlag at h
  cases computerHint
  · simp at h
  · left
    refine ⟨rfl, ?_⟩
    by_contra hs
    simp [hs] at h
  · right
    refine ⟨rfl, ?_⟩
    by_contra hs
    simp [hs] at h

theorem brakeFlag_slow (computerHint : ComputerHint) (absSpeed : ℚ)
    (h : absSpeed < (36 / 10) * (9 / 10)) : brakeFlag computerHint absSpeed false = false := by
  unfold brakeFlag
  simp [h]

theorem accelerateFlag_slow (tileTypeEnum : TileType) (absSpeed : ℚ)
    (h : absSpeed < (36 / 10) * (9 / 10)) : accelerateFlag tileTypeEnum absSpeed false = true := by
  unfold accelerateFlag
  simp [h]

theorem accelerateFlag_cooldown (tileTypeEnum : TileType) (absSpeed : ℚ)
    (h : absSpeed > 5) : accelerateFlag tileTypeEnum absSpeed true = false := by
  unfold accelerateFlag
  simp [h]

end SpeedLemmas

/-! ## Text dimension lemmas -/

section TextLemmas

variable {T : Type}

/-- The height after the loop: one glyph height more per newline. -/
theorem updateTextDimensionsLoop_height [LinearOrderedCommRing T] (w h : T) (cs : List Char)
    (maxLength length textHeight : T) :
    (updateTextDimensionsLoop w h cs maxLength length textHeight).2.2 =
      textHeight + h * (newlineCount cs : T) := by
  induction cs generalizing maxLength length textHeight with
  | nil => simp [updateTextDimensionsLoop, newlineCount]
  | cons c rest ih =>
    unfold updateTextDimensionsLoop
    unfold newlineCount at ih ⊢
    split
    · rename_i hc
      rw [ih, hc, List.count_cons_self]
      push_cast
      ring
    · rename_i hc
      rw [ih, List.count_cons_of_ne (Ne.symm hc)]

/-- The width after the loop is the glyph width times the character count of `runLoop`. -/
theorem updateTextDimensionsLoop_width [LinearOrderedCommRing T] (w h : T) (hw : 0 ≤ w)
    (cs : List Char) (best cur : Nat) (textHeight : T) :
    (updateTextDimensionsLoop w h cs (w * best) (w * cur) textHeight).1 =
      w * (runLoop cs best cur : T) := by
  induction cs generalizing best cur textHeight with
  | nil => simp [updateTextDimensionsLoop, runLoop]
  | cons c rest ih =>
    unfold updateTextDimensionsLoop runLoop
    split
    · have := ih best 0 (textHeight + h)
      simpa using this
    · have hcur : w * (cur : T) + w = w * ((cur + 1 : Nat) : T) := by
        push_cast
        ring
      have hbest : (if w * (cur : T) + w > w * (best : T) then w * (cur : T) + w
          else w * (best : T)) = w * ((max best (cur + 1) : Nat) : T) := by
        rw [hcur]
        split
        · rename_i hgt
          have hlt : best < cur + 1 := by
            by_contra hle
            have hle' : ((cur + 1 : Nat) : T) ≤ (best : T) := by exact_mod_cast not_lt.mp hle
            have := mul_le_mul_of_nonneg_left hle' hw
            exact absurd hgt (not_lt.mpr this)
          rw [max_eq_right hlt.le]
        · rename_i hgt
          rcases le_total best (cur + 1) with hle | hle
          · have hle' : (best : T) ≤ ((cur + 1 : Nat) : T) := by exact_mod_cast hle
            have h1 := mul_le_mul_of_nonneg_left hle' hw
            rw [max_eq_right hle]
            exact le_antisymm h1 (not_lt.mp hgt)
          · rw [max_eq_left hle]
      rw [hbest, hcur]
      exact ih _ _ _

/-- Cutting a text at its newlines always yields at least one piece. -/
theorem splitOn_newline_ne_nil (cs : List Char) : cs.splitOn '\n' ≠ [] := by
  unfold List.splitOn
  exact List.splitOnP_ne_nil _ _

theorem splitOn_newline_cons_newline (rest : List Char) :
    ('\n' :: rest).splitOn '\n' = [] :: rest.splitOn '\n' := by
  unfold List.splitOn
  rw [List.splitOnP_cons]
  simp

theorem splitOn_newline_cons_other (c : Char) (rest : List Char) (hc : c ≠ '\n') :
    (c :: rest).splitOn '\n' = List.modifyHead (List.cons c) (rest.splitOn '\n') := by
  unfold List.splitOn
  rw [List.splitOnP_cons]
  simp [hc]

/-- The character-counting loop computes the longest piece of the text cut at its newlines,
where the first piece is extended by the `cur` characters already read. -/
theorem runLoop_eq_pieces (cs : List Char) :
    ∀ (best cur : Nat) (r0 : List Char) (rs : List (List Char)), cur ≤ best →
      cs.splitOn '\n' = r0 :: rs →
      runLoop cs best cur =
        max best (max (cur + r0.length) ((rs.map List.length).foldr max 0)) := by
  induction cs with
  | nil =>
    intro best cur r0 rs h hS
    have : [([] : List Char)] = r0 :: rs := by
      rw [← hS]
      rfl
    obtain ⟨h0, hs⟩ := List.cons.inj this
    subst h0
    subst hs
    simp only [runLoop, List.length_nil, List.map_nil, List.foldr_nil]
    omega
  | cons c rest ih =>
    intro best cur r0 rs h hS
    obtain ⟨r0', rs', hS'⟩ := List.exists_cons_of_ne_nil (splitOn_newline_ne_nil rest)
    by_cases hc : c = '\n'
    · subst hc
      rw [splitOn_newline_cons_newline, hS'] at hS
      obtain ⟨h0, hs⟩ := List.cons.inj hS
      subst h0
      subst hs
      rw [runLoop, if_pos rfl, ih best 0 r0' rs' (Nat.zero_le _) hS']
      simp only [List.length_nil, List.map_cons, List.foldr_cons]
      omega
    · rw [splitOn_newline_cons_other c rest hc, hS', List.modifyHead_cons] at hS
      obtain ⟨h0, hs⟩ := List.cons.inj hS
      subst h0
      subst hs
      rw [runLoop, if_neg hc, ih (max best (cur + 1)) (cur + 1) r0' rs' (le_max_right _ _) hS']
      simp only [List.length_cons]
      omega

/-- Started from nothing, the character-counting loop computes `longestRun`. -/
theorem runLoop_eq_longestRun (cs : List Char) : runLoop cs 0 0 = longestRun cs := by
  obtain ⟨r0, rs, hS⟩ := List.exists_cons_of_ne_nil (splitOn_newline_ne_nil cs)
  rw [runLoop_eq_pieces cs 0 0 r0 rs le_rfl hS, longestRun, hS]
  simp only [List.map_cons, List.foldr_cons]
  omega

end TextLemmas

/-! ## Binary32 rounding lemmas -/

section Binary32Lemmas

theorem roundHalfEven_intCast (n : ℤ) : roundHalfEven (n : ℚ) = n := by
  simp [roundHalfEven]

/-- A binary32 value is its own binary32 rounding. -/
theorem roundBinary32_of_isBinary32 {x : ℚ} (h : IsBinary32 x) : roundBinary32 x = x := by
  obtain ⟨m, k, hm, hk, rfl⟩ := h
  unfold roundBinary32
  split
  · rename_i h0
    exact h0.symm
  · rename_i h0
    have hpos : (0 : ℚ) < |(m : ℚ) * 2 ^ k| := abs_pos.mpr h0
    have htwo : (0 : ℚ) < 2 := two_pos
    have hlog : Int.log 2 |(m : ℚ) * 2 ^ k| - 23 ≤ k := by
      have h1 : |(m : ℚ) * 2 ^ k| < ((2 : ℕ) : ℚ) ^ (24 + k) := by
        rw [abs_mul, abs_of_pos (zpow_pos htwo k), zpow_add₀ (by norm_num)]
        have hm' : |(m : ℚ)| < 2 ^ (24 : ℤ) := by
          rw [show (2 : ℚ) ^ (24 : ℤ) = ((2 ^ 24 : ℤ) : ℚ) by norm_num, ← Int.cast_abs]
          exact_mod_cast hm
        push_cast
        exact mul_lt_mul_of_pos_right hm' (zpow_pos htwo k)
      have := (Int.lt_zpow_iff_log_lt (by norm_num : 1 < 2) hpos).mp h1
      omega
    have hexp : max (Int.log 2 |(m : ℚ) * 2 ^ k|) (-126) - 23 ≤ k := by
      rcases le_total (Int.log 2 |(m : ℚ) * 2 ^ k|) (-126) with h | h
      · rw [max_eq_right h]
        omega
      · rw [max_eq_left h]
        exact hlog
    generalize max (Int.log 2 |(m : ℚ) * 2 ^ k|) (-126) - 23 = e at hexp
    obtain ⟨n, hn⟩ := Int.eq_ofNat_of_zero_le (sub_nonneg.mpr hexp)
    have hk' : k = e + n := by omega
    have hq : (m : ℚ) * 2 ^ k / 2 ^ e = ((m * 2 ^ n : ℤ) : ℚ) := by
      rw [hk', zpow_add₀ (by norm_num), zpow_natCast]
      push_cast
      field_simp
      ring
    rw [hq, roundHalfEven_intCast, hk', zpow_add₀ (by norm_num), zpow_natCast]
    push_cast
    ring

/-- Two values on a common binary grid: if the difference is smaller in magnitude than a
binary32 value, it is a binary32 value. -/
theorem isBinary32_sub_of_grid {d y : ℚ} {M c k : ℤ} (hk : -149 ≤ k) (hM : |M| < 2 ^ 24)
    (hd : d = M * 2 ^ k) (hy : y = c * 2 ^ k) (hlt : |d - y| < |d|) : IsBinary32 (d - y) := by
  refine ⟨M - c, k, ?_, hk, ?_⟩
  · have hpos : (0 : ℚ) < 2 ^ k := zpow_pos two_pos k
    have h1 : |((M - c : ℤ) : ℚ)| * 2 ^ k < |(M : ℚ)| * 2 ^ k := by
      have e1 : |((M - c : ℤ) : ℚ)| * 2 ^ k = |d - y| := by
        rw [hd, hy, ← sub_mul, abs_mul, abs_of_pos hpos]
        push_cast
        rfl
      have e2 : |(M : ℚ)| * 2 ^ k = |d| := by
        rw [hd, abs_mul, abs_of_pos hpos]
      rw [e1, e2]
      exact hlt
    have h2 : |((M - c : ℤ) : ℚ)| < |(M : ℚ)| := lt_of_mul_lt_mul_right h1 hpos.le
    have h3 : |M - c| < |M| := by
      rw [← Int.cast_abs, ← Int.cast_abs] at h2
      exact_mod_cast h2
    exact lt_trans h3 hM
  · rw [hd, hy]
    push_cast
    ring

/-- One adjusting step of the loop stays within binary32 below `2^27`: there the last place of
`diff` is at most 8, `360 = 45 * 8` lies on the grid of `diff`, and the result is smaller in
magnitude. -/
theorem isBinary32_step {d y : ℚ} (h : IsBinary32 d) (hy : y = 360 ∨ y = -360)
    (hbig : |d| < 2 ^ 27) (hlt : |d - y| < |d|) : IsBinary32 (d - y) := by
  obtain ⟨m, k, hm, hk, hd⟩ := h
  obtain ⟨s, hs⟩ : ∃ s : ℤ, y = s * 360 := by
    rcases hy with hy | hy
    · exact ⟨1, by rw [hy]; norm_num⟩
    · exact ⟨-1, by rw [hy]; norm_num⟩
  by_cases hk3 : k ≤ 3
  · obtain ⟨n, hn⟩ := Int.eq_ofNat_of_zero_le (sub_nonneg.mpr hk3)
    have hk' : (3 : ℤ) = k + n := by omega
    refine isBinary32_sub_of_grid (c := s * 45 * 2 ^ n) hk hm hd ?_ hlt
    have h8 : (2 : ℚ) ^ (3 : ℤ) = 2 ^ k * 2 ^ n := by
      rw [hk', zpow_add₀ (by norm_num), zpow_natCast]
    have h8' : (2 : ℚ) ^ (3 : ℤ) = 8 := by norm_num
    rw [hs]
    push_cast
    calc (s : ℚ) * 360 = s * 45 * (2 ^ k * 2 ^ n) := by rw [← h8, h8']; ring
      _ = s * 45 * 2 ^ n * 2 ^ k := by ring
  · obtain ⟨n, hn⟩ := Int.eq_ofNat_of_zero_le (sub_nonneg.mpr (not_le.mp hk3).le)
    have hk' : k = 3 + n := by omega
    have hd' : d = ((m * 2 ^ n : ℤ) : ℚ) * 2 ^ (3 : ℤ) := by
      rw [hd, hk', zpow_add₀ (by norm_num), zpow_natCast]
      push_cast
      ring
    have hM : |m * 2 ^ n| < 2 ^ 24 := by
      have h1 : |((m * 2 ^ n : ℤ) : ℚ)| * 8 < 2 ^ 24 * 8 := by
        have : |d| = |((m * 2 ^ n : ℤ) : ℚ)| * 8 := by
          rw [hd', abs_mul]
          norm_num
        rw [← this]
        calc |d| < 2 ^ 27 := hbig
          _ = 2 ^ 24 * 8 := by norm_num
      have h2 : |((m * 2 ^ n : ℤ) : ℚ)| < 2 ^ 24 := lt_of_mul_lt_mul_right h1 (by norm_num)
      rw [← Int.cast_abs] at h2
      exact_mod_cast h2
    refine isBinary32_sub_of_grid (c := s * 45) (by norm_num) hM hd' ?_ hlt
    rw [hs]
    push_cast
    norm_num
    ring

/-- Below `2^27` the loop over binary32 values and the loop in exact arithmetic agree. -/
theorem normalizeDiffBinary32_eq_exact (fuel : Nat) (d : ℚ) (h : IsBinary32 d)
    (hbig : |d| < 2 ^ 27) : normalizeDiffBinary32 fuel d = normalizeDiff fuel d := by
  induction fuel generalizing d with
  | zero => rfl
  | succ n ih =>
    rw [normalizeDiffBinary32, normalizeDiff]
    by_cases h1 : d > 180
    · have hlt : |d - 360| < |d| := by
        rw [abs_lt, abs_of_pos (by linarith : (0 : ℚ) < d)]
        constructor <;> linarith
      have hrep := isBinary32_step h (Or.inl rfl) hbig hlt
      rw [if_pos h1, if_pos h1, roundBinary32_of_isBinary32 hrep]
      exact ih _ hrep (lt_trans hlt hbig)
    · by_cases h2 : d < -180
      · have hlt : |d - (-360)| < |d| := by
          rw [abs_lt, abs_of_neg (by linarith : d < 0)]
          constructor <;> linarith
        have hrep := isBinary32_step h (Or.inr rfl) hbig hlt
        rw [sub_neg_eq_add] at hrep hlt
        rw [if_neg h1, if_neg h1, if_pos h2, if_pos h2, roundBinary32_of_isBinary32 hrep]
        exact ih _ hrep (lt_trans hlt hbig)
      · rw [if_neg h1, if_neg h1, if_neg h2, if_neg h2]

/-- The value `1e10` is a binary32 value, and subtracting 360 from it rounds back to it. -/
theorem roundBinary32_1e10 :
    IsBinary32 10000000000 ∧ roundBinary32 (10000000000 - 360) = 10000000000 := by
  constructor
  · exact ⟨9765625, 10, by norm_num, by norm_num, by norm_num⟩
  · have hlog : Int.log 2 |(10000000000 - 360 : ℚ)| = 33 := by
      have hpos : (0 : ℚ) < |(10000000000 - 360 : ℚ)| := by norm_num
      have h1 : (33 : ℤ) ≤ Int.log 2 |(10000000000 - 360 : ℚ)| :=
        (Int.zpow_le_iff_le_log (by norm_num : 1 < 2) hpos).mp (by norm_num)
      have h2 : Int.log 2 |(10000000000 - 360 : ℚ)| < 34 :=
        (Int.lt_zpow_iff_log_lt (by norm_num : 1 < 2) hpos).mp (by norm_num)
      omega
    unfold roundBinary32
    rw [if_neg (by norm_num), hlog]
    have hfloor : ⌊(10000000000 - 360 : ℚ) / 2 ^ (max (33 : ℤ) (-126) - 23)⌋ = 9765624 := by
      rw [Int.floor_eq_iff]
      norm_num
    unfold roundHalfEven
    rw [hfloor]
    norm_num

/-- Started at `1e10`, the loop over binary32 values never leaves: no bound on the number of
iterations is enough. -/
theorem normalizeDiffBinary32_1e10 (fuel : Nat) :
    normalizeDiffBinary32 fuel 10000000000 = none := by
  induction fuel with
  | zero => rfl
  | succ n ih =>
    rw [normalizeDiffBinary32, if_pos (by norm_num), roundBinary32_1e10.2]
    exact ih

theorem roundHalfEven_bounds (q : ℚ) : ⌊q⌋ ≤ roundHalfEven q ∧ roundHalfEven q ≤ ⌊q⌋ + 1 := by
  unfold roundHalfEven
  split_ifs <;> constructor <;> omega

/-- The binary32 rounding of a rational is a binary32 value, at most one unit in the last
place away. -/
theorem roundBinary32_spec (x : ℚ) (hx : x ≠ 0) :
    IsBinary32 (roundBinary32 x) ∧
      |roundBinary32 x - x| ≤ 2 ^ (max (Int.log 2 |x|) (-126) - 23) := by
  have hpos : (0 : ℚ) < |x| := abs_pos.mpr hx
  have hlt : |x| < 2 ^ (max (Int.log 2 |x|) (-126) + 1) := by
    have h1 : |x| < ((2 : ℕ) : ℚ) ^ (Int.log 2 |x| + 1) := Int.lt_zpow_succ_log_self (by norm_num) _
    have h2 : ((2 : ℕ) : ℚ) ^ (Int.log 2 |x| + 1) ≤ 2 ^ (max (Int.log 2 |x|) (-126) + 1) := by
      push_cast
      exact zpow_le_zpow_right₀ (by norm_num) (by omega)
    exact lt_of_lt_of_le h1 h2
  have hE : -126 ≤ max (Int.log 2 |x|) (-126) := le_max_right _ _
  unfold roundBinary32
  rw [if_neg hx]
  generalize max (Int.log 2 |x|) (-126) = E at hlt hE
  have hu : (0 : ℚ) < 2 ^ (E - 23) := zpow_pos two_pos _
  have hq : |x / 2 ^ (E - 23)| < 2 ^ (24 : ℤ) := by
    rw [abs_div, abs_of_pos hu, div_lt_iff₀ hu, ← zpow_add₀ (by norm_num)]
    have : (24 : ℤ) + (E - 23) = E + 1 := by ring
    rw [this]
    exact hlt
  obtain ⟨hlo, hhi⟩ := roundHalfEven_bounds (x / 2 ^ (E - 23))
  generalize hN : roundHalfEven (x / 2 ^ (E - 23)) = N at hlo hhi
  have hq' := abs_lt.mp hq
  have h24 : (2 : ℚ) ^ (24 : ℤ) = ((2 ^ 24 : ℤ) : ℚ) := by norm_num
  have hfl_lo : -(2 ^ 24 : ℤ) ≤ ⌊x / 2 ^ (E - 23)⌋ := by
    rw [Int.le_floor]
    push_cast
    rw [h24] at hq'
    push_cast at hq'
    exact hq'.1.le
  have hfl_hi : ⌊x / 2 ^ (E - 23)⌋ < (2 ^ 24 : ℤ) := by
    rw [Int.floor_lt]
    rw [h24] at hq'
    exact hq'.2
  have hfl1 : (⌊x / 2 ^ (E - 23)⌋ : ℚ) ≤ x / 2 ^ (E - 23) := Int.floor_le _
  have hfl2 : x / 2 ^ (E - 23) < ⌊x / 2 ^ (E - 23)⌋ + 1 := Int.lt_floor_add_one _
  constructor
  · by_cases hmax : |N| < 2 ^ 24
    · exact ⟨N, E - 23, hmax, by omega, rfl⟩
    · have hN' : N = 2 ^ 24 ∨ N = -2 ^ 24 := by
        rw [abs_lt, not_and_or] at hmax
        omega
      rcases hN' with h | h
      · refine ⟨2 ^ 23, E - 23 + 1, by norm_num, by omega, ?_⟩
        rw [h, zpow_add₀ (by norm_num)]
        push_cast
        ring
      · refine ⟨-2 ^ 23, E - 23 + 1, by norm_num, by omega, ?_⟩
        rw [h, zpow_add₀ (by norm_num)]
        push_cast
        ring
  · have hNq : |(N : ℚ) - x / 2 ^ (E - 23)| ≤ 1 := by
      have h1 : (⌊x / 2 ^ (E - 23)⌋ : ℚ) ≤ N := by exact_mod_cast hlo
      have h2 : (N : ℚ) ≤ ⌊x / 2 ^ (E - 23)⌋ + 1 := by exact_mod_cast hhi
      rw [abs_le]
      constructor <;> linarith
    have e1 : (N : ℚ) * 2 ^ (E - 23) - x = ((N : ℚ) - x / 2 ^ (E - 23)) * 2 ^ (E - 23) := by
      field_simp
    rw [e1, abs_mul, abs_of_pos hu]
    calc |(N : ℚ) - x / 2 ^ (E - 23)| * 2 ^ (E - 23) ≤ 1 * 2 ^ (E - 23) :=
          mul_le_mul_of_nonneg_right hNq hu.le
      _ = 2 ^ (E - 23) := one_mul _

/-- The binary32 rounding of a difference of magnitude at most 540 (a target angle in
`[-180, 180]` minus a car angle in `(-360, 360)`) is a binary32 value of magnitude at most
541. -/
theorem roundBinary32_of_small (x : ℚ) (hx : |x| ≤ 540) :
    IsBinary32 (roundBinary32 x) ∧ |roundBinary32 x| ≤ 541 := by
  by_cases h0 : x = 0
  · subst h0
    refine ⟨⟨0, 0, by norm_num, by norm_num, by simp [roundBinary32]⟩, by simp [roundBinary32]⟩
  · obtain ⟨hrep, herr⟩ := roundBinary32_spec x h0
    refine ⟨hrep, ?_⟩
    have hpos : (0 : ℚ) < |x| := abs_pos.mpr h0
    have hlog : Int.log 2 |x| < 10 :=
      (Int.lt_zpow_iff_log_lt (by norm_num : 1 < 2) hpos).mp
        (lt_of_le_of_lt hx (by norm_num))
    have hexp : max (Int.log 2 |x|) (-126) - 23 ≤ 0 := by
      rcases le_total (Int.log 2 |x|) (-126) with h | h
      · rw [max_eq_right h]
        norm_num
      · rw [max_eq_left h]
        omega
    have hone : (2 : ℚ) ^ (max (Int.log 2 |x|) (-126) - 23) ≤ 1 :=
      zpow_le_one_of_nonpos₀ (by norm_num) hexp
    have h1 : |roundBinary32 x| ≤ |roundBinary32 x - x| + |x| := by
      have := abs_add (roundBinary32 x - x) x
      simpa using this
    linarith

end Binary32Lemmas

/-! ## Claims -/

section Claims

variable {T : Type}

/-- C1: for every box whose state is a rectangle with positive half extents (any centre, any
rotation), a point strictly inside the rectangle spanned by `vertex(0..3)` is accepted by
`contains`, and a point strictly outside it is rejected; this holds whatever `sign` returns
at zero. -/
theorem contains_inside_true_outside_false [LinearOrderedField T] (atZero : SIGN)
    (b : MCOBBox T) (hrect : IsRectangle b) (hhx : 0 < b.m_hx) (hhy : 0 < b.m_hy)
    (p : MCVector2d T) :
    (StrictlyInside b p → b.contains atZero p = true) ∧
      (StrictlyOutside b p → b.contains atZero p = false) := by
  have hD := hrect.cross_ne_zero hhx hhy
  refine ⟨fun hin => MCOBBox.contains_of_strictlyInside atZero b hrect.mirror2 hrect.mirror3 hD p hin,
    fun hout => ?_⟩
  by_contra hc
  rw [Bool.not_eq_false] at hc
  exact hout (MCOBBox.inRectangle_of_contains atZero b hrect.mirror2 hrect.mirror3 hD p hc)

/-- C1 at a concrete tilted rectangle: its centre is inside and accepted, the point (20, 20)
is outside and rejected. -/
theorem contains_inside_true_outside_false_witness :
    IsRectangle tiltedBox ∧ (0 : ℚ) < tiltedBox.m_hx ∧ (0 : ℚ) < tiltedBox.m_hy ∧
      StrictlyInside tiltedBox ⟨10, -3⟩ ∧ tiltedBox.contains SIGN.ZERO ⟨10, -3⟩ = true ∧
      StrictlyOutside tiltedBox ⟨20, 20⟩ ∧ tiltedBox.contains SIGN.ZERO ⟨20, 20⟩ = false := by
  have hrect : IsRectangle tiltedBox := by
    constructor <;> norm_num [tiltedBox, dot]
  have hx : (0 : ℚ) < tiltedBox.m_hx := by norm_num [tiltedBox]
  have hy : (0 : ℚ) < tiltedBox.m_hy := by norm_num [tiltedBox]
  have hin : StrictlyInside tiltedBox ⟨10, -3⟩ := by
    refine ⟨1 / 2, 1 / 2, by norm_num, by norm_num, by norm_num, by norm_num, ?_⟩
    rw [MCVector2d.ext_iff2]
    constructor <;> norm_num [rectPoint, tiltedBox]
  have hout : StrictlyOutside tiltedBox ⟨20, 20⟩ := by
    rintro ⟨s, t, hs0, hs1, ht0, ht1, h⟩
    rw [MCVector2d.ext_iff2] at h
    norm_num [rectPoint, tiltedBox] at h
    linarith [h.1]
  exact ⟨hrect, hx, hy, hin,
    (contains_inside_true_outside_false SIGN.ZERO tiltedBox hrect hx hy ⟨10, -3⟩).1 hin, hout,
    (contains_inside_true_outside_false SIGN.ZERO tiltedBox hrect hx hy ⟨20, 20⟩).2 hout⟩

/-- C2 (code defect, evaluated): `intersects` hands the stored vertex vectors `m_v[k]` to
`contains` without adding the location. For a unit square at (10, 10) and a square of half
extent 2 at the origin it answers true although no world-space vertex of either box is
contained by the other; for two unit squares at (10, 10) and (11, 11) it answers false although
`vertex(2)` of the first is contained by the second. -/
theorem intersects_disagrees_with_world_vertices (z : SIGN) :
    (farBox.intersects z originBox = true ∧
      (∀ k, originBox.contains z (farBox.vertex k) = false) ∧
      (∀ k, farBox.contains z (originBox.vertex k) = false)) ∧
    (farBox.intersects z nearBox = false ∧ nearBox.contains z (farBox.vertex 2) = true) := by
  refine ⟨⟨?_, ?_, ?_⟩, ?_, ?_⟩
  · norm_num [farBox, originBox, MCOBBox.mk0, MCOBBox.intersects, MCOBBox.contains,
      MCMathUtil.sign, MCVector2d.cross]
  · intro k
    simp only [MCOBBox.vertex, MCOBBox.m_v]
    split <;>
    norm_num [farBox, originBox, MCOBBox.mk0, MCOBBox.contains, MCMathUtil.sign,
      MCVector2d.cross] <;> decide
  · intro k
    simp only [MCOBBox.vertex, MCOBBox.m_v]
    split <;>
    norm_num [farBox, originBox, MCOBBox.mk0, MCOBBox.contains, MCMathUtil.sign,
      MCVector2d.cross] <;> decide
  · norm_num [farBox, nearBox, MCOBBox.mk0, MCOBBox.intersects, MCOBBox.contains,
      MCMathUtil.sign, MCVector2d.cross]
    decide
  · norm_num [farBox, nearBox, MCOBBox.mk0, MCOBBox.vertex, MCOBBox.m_v, MCOBBox.contains,
      MCMathUtil.sign, MCVector2d.cross]

/-- C3 (code defect, evaluated): two rectangles with positive half extents and no point in
common, whose centres are farther apart than the sum of their half diagonals (half diagonals
at most 3 and 5, centre distance at least 49), for which `intersects` answers true. Moving the
first box into overlap and back restores the same state, so the wrong answer persists. -/
theorem intersects_true_on_disjoint_boxes (z : SIGN) :
    IsRectangle shelfBox ∧ IsRectangle crateBox ∧
    0 < shelfBox.m_hx ∧ 0 < shelfBox.m_hy ∧ 0 < crateBox.m_hx ∧ 0 < crateBox.m_hy ∧
    (∀ p, ¬ (InRectangle shelfBox p ∧ InRectangle crateBox p)) ∧
    (shelfBox.m_hx ^ 2 + shelfBox.m_hy ^ 2 ≤ 3 ^ 2 ∧ crateBox.m_hx ^ 2 + crateBox.m_hy ^ 2 ≤ 5 ^ 2 ∧
      (3 + 5) ^ 2 < (shelfBox.m_p.i - crateBox.m_p.i) ^ 2 + (shelfBox.m_p.j - crateBox.m_p.j) ^ 2) ∧
    (shelfBox.translate ⟨2, 2⟩).translate ⟨50, 0⟩ = shelfBox ∧
    shelfBox.intersects z crateBox = true := by
  refine ⟨?_, ?_, ?_, ?_, ?_, ?_, ?_, ?_, ?_, ?_⟩
  · constructor <;> norm_num [shelfBox, MCOBBox.mk0, dot]
  · constructor <;> norm_num [crateBox, MCOBBox.mk0, dot]
  · norm_num [shelfBox, MCOBBox.mk0]
  · norm_num [shelfBox, MCOBBox.mk0]
  · norm_num [crateBox, MCOBBox.mk0]
  · norm_num [crateBox, MCOBBox.mk0]
  · rintro p ⟨⟨s, t, hs0, hs1, ht0, ht1, h⟩, ⟨u, v, hu0, hu1, hv0, hv1, h'⟩⟩
    rw [MCVector2d.ext_iff2] at h h'
    norm_num [rectPoint, shelfBox, MCOBBox.mk0] at h
    norm_num [rectPoint, crateBox, MCOBBox.mk0] at h'
    linarith [h.1, h'.1]
  · norm_num [shelfBox, crateBox, MCOBBox.mk0]
  · rfl
  · norm_num [shelfBox, crateBox, MCOBBox.mk0, MCOBBox.intersects, MCOBBox.contains,
      MCMathUtil.sign, MCVector2d.cross]

/-- C4 fails as stated: a wide and a tall rectangle with the same centre (a plus shape) have
positive half extents and share the interior point (0, 0), yet `intersects` answers false,
because no vertex of either lies in the other. -/
theorem plus_shape_not_detected :
    IsRectangle wideBox ∧ IsRectangle tallBox ∧
    0 < wideBox.m_hx ∧ 0 < wideBox.m_hy ∧ 0 < tallBox.m_hx ∧ 0 < tallBox.m_hy ∧
    (StrictlyInside wideBox ⟨0, 0⟩ ∧ StrictlyInside tallBox ⟨0, 0⟩) ∧
    ∀ z, wideBox.intersects z tallBox = false := by
  refine ⟨?_, ?_, ?_, ?_, ?_, ?_, ⟨?_, ?_⟩, ?_⟩
  · constructor <;> norm_num [wideBox, MCOBBox.mk0, dot]
  · constructor <;> norm_num [tallBox, MCOBBox.mk0, dot]
  · norm_num [wideBox, MCOBBox.mk0]
  · norm_num [wideBox, MCOBBox.mk0]
  · norm_num [tallBox, MCOBBox.mk0]
  · norm_num [tallBox, MCOBBox.mk0]
  · refine ⟨1 / 2, 1 / 2, by norm_num, by norm_num, by norm_num, by norm_num, ?_⟩
    rw [MCVector2d.ext_iff2]
    constructor <;> norm_num [rectPoint, wideBox, MCOBBox.mk0]
  · refine ⟨1 / 2, 1 / 2, by norm_num, by norm_num, by norm_num, by norm_num, ?_⟩
    rw [MCVector2d.ext_iff2]
    constructor <;> norm_num [rectPoint, tallBox, MCOBBox.mk0]
  · intro z
    norm_num [wideBox, tallBox, MCOBBox.mk0, MCOBBox.intersects, MCOBBox.contains,
      MCMathUtil.sign, MCVector2d.cross]
    decide

/-- C4 as amended: vertex containment is sufficient for a positive answer. For two rectangles
with positive half extents, if one box is centred at the origin and one of its vertices lies
strictly inside the other rectangle, `intersects` answers true. -/
theorem intersects_of_vertex_strictly_inside [LinearOrderedField T] (z : SIGN)
    (a b : MCOBBox T) (ha : IsRectangle a) (hb : IsRectangle b)
    (hax : 0 < a.m_hx) (hay : 0 < a.m_hy) (hbx : 0 < b.m_hx) (hby : 0 < b.m_hy)
    (h : (a.m_p = ⟨0, 0⟩ ∧ ∃ k, StrictlyInside b (a.vertex k)) ∨
      (b.m_p = ⟨0, 0⟩ ∧ ∃ k, StrictlyInside a (b.vertex k))) :
    a.intersects z b = true := by
  rw [MCOBBox.intersects_eq_true_iff]
  rcases h with ⟨h0, k, hk⟩ | ⟨h0, k, hk⟩
  · left
    have hc := MCOBBox.contains_of_strictlyInside z b hb.mirror2 hb.mirror3
      (hb.cross_ne_zero hbx hby) _ hk
    rw [MCOBBox.vertex_of_origin a h0] at hc
    rcases MCOBBox.m_v_cases a (k &&& 3) with e | e | e | e <;> rw [e] at hc <;> simp [hc]
  · right
    have hc := MCOBBox.contains_of_strictlyInside z a ha.mirror2 ha.mirror3
      (ha.cross_ne_zero hax hay) _ hk
    rw [MCOBBox.vertex_of_origin b h0] at hc
    rcases MCOBBox.m_v_cases b (k &&& 3) with e | e | e | e <;> rw [e] at hc <;> simp [hc]

/-- The amended C4 at a unit square at the origin whose `vertex(2)` is the centre of a second
square. -/
theorem intersects_of_vertex_strictly_inside_witness :
    StrictlyInside cornerBox (unitBox.vertex 2) ∧
      unitBox.intersects SIGN.ZERO cornerBox = true := by
  have hu : IsRectangle unitBox := by
    constructor <;> norm_num [unitBox, MCOBBox.mk0, dot]
  have hc : IsRectangle cornerBox := by
    constructor <;> norm_num [cornerBox, MCOBBox.mk0, dot]
  have hin : StrictlyInside cornerBox (unitBox.vertex 2) := by
    refine ⟨1 / 2, 1 / 2, by norm_num, by norm_num, by norm_num, by norm_num, ?_⟩
    rw [MCVector2d.ext_iff2]
    constructor <;> norm_num [rectPoint, unitBox, cornerBox, MCOBBox.mk0]
  exact ⟨hin, intersects_of_vertex_strictly_inside SIGN.ZERO unitBox cornerBox hu hc
    (by norm_num [unitBox, MCOBBox.mk0]) (by norm_num [unitBox, MCOBBox.mk0])
    (by norm_num [cornerBox, MCOBBox.mk0]) (by norm_num [cornerBox, MCOBBox.mk0])
    (Or.inl ⟨rfl, 2, hin⟩)⟩

/-- C5 (code defect, evaluated): `rotate` turns the already turned vertex vectors by the new
absolute angle. After `MCOBBox(2, 1, (0,0))`, `rotate(90)`, `rotate(180)` the stored angle
is 180 and the half extents are 2 and 1, but the corner vector of `vertex(0)` is `(-1, 2)` (the
corner turned by 270 degrees) while the corner `(-2,-1)` turned by 180 degrees is `(2, 1)`. -/
theorem rotate_twice_corners_disagree_with_angle :
    (((MCOBBox.mk0 2 1 ⟨0, 0⟩).rotate quarterTurnLut 90).rotate quarterTurnLut 180).angle = 180 ∧
    (((MCOBBox.mk0 2 1 ⟨0, 0⟩).rotate quarterTurnLut 90).rotate quarterTurnLut 180).vertex 0
        - (((MCOBBox.mk0 2 1 ⟨0, 0⟩).rotate quarterTurnLut 90).rotate quarterTurnLut 180).location
      = ⟨-1, 2⟩ ∧
    cornerAtAngle quarterTurnLut
        (((MCOBBox.mk0 2 1 ⟨0, 0⟩).rotate quarterTurnLut 90).rotate quarterTurnLut 180) 0
      = ⟨2, 1⟩ := by
  refine ⟨?_, ?_, ?_⟩
  · simp [MCOBBox.rotate, MCOBBox.mk0, MCOBBox.angle]
  · rw [MCVector2d.ext_iff2]
    norm_num [MCOBBox.rotate, MCOBBox.mk0, MCOBBox.location, quarterTurnLut,
      MCTrigonom.rotatedX, MCTrigonom.rotatedY]
  · rw [MCVector2d.ext_iff2]
    norm_num [cornerAtAngle, axisCorner, MCOBBox.rotate, MCOBBox.mk0, MCOBBox.angle, MCOBBox.hx,
      MCOBBox.hy, quarterTurnLut, MCTrigonom.rotatedX, MCTrigonom.rotatedY]

/-- C6: `rotate(a)` on a box whose angle already is `a` returns the box unchanged (half
extents, location, angle and all four vertex vectors); hence `rotate(a)` followed by
`rotate(a)` is the same box, with the same `vertex(k)` for every `k`, as a single `rotate(a)`. -/
theorem rotate_same_angle_is_noop [Ring T] (tr : MCTrigonom T) (b : MCOBBox T) (a : Nat) :
    b.rotate tr b.angle = b ∧
      (b.rotate tr a).rotate tr a = b.rotate tr a ∧
      ∀ k, ((b.rotate tr a).rotate tr a).vertex k = (b.rotate tr a).vertex k := by
  have h1 : ∀ c : MCOBBox T, c.rotate tr c.m_a = c := by
    intro c
    simp [MCOBBox.rotate]
  have h2 : (b.rotate tr a).m_a = a := by
    unfold MCOBBox.rotate
    split
    · rfl
    · rename_i h
      exact (not_not.mp h).symm
  have h3 : (b.rotate tr a).rotate tr a = b.rotate tr a := by
    have := h1 (b.rotate tr a)
    rw [h2] at this
    exact this
  exact ⟨h1 b, h3, fun k => by rw [h3]⟩

/-- C7: `bbox()` is the envelope of the four world-space vertices: `x1 ≤ x2` and `y1 ≤ y2`,
every `vertex(k)` lies within the returned box, and each of the four bounds is the
corresponding component of one of `vertex(0..3)` (so `x1`, `y1` are the minima and `x2`, `y2`
the maxima over the vertices). -/
theorem bbox_is_envelope_of_vertices [LinearOrderedRing T] (b : MCOBBox T) :
    (b.bbox.x1 ≤ b.bbox.x2 ∧ b.bbox.y1 ≤ b.bbox.y2) ∧
    (∀ k, b.bbox.x1 ≤ (b.vertex k).i ∧ (b.vertex k).i ≤ b.bbox.x2 ∧
      b.bbox.y1 ≤ (b.vertex k).j ∧ (b.vertex k).j ≤ b.bbox.y2) ∧
    (∃ k, k < 4 ∧ (b.vertex k).i = b.bbox.x1) ∧ (∃ k, k < 4 ∧ (b.vertex k).i = b.bbox.x2) ∧
    (∃ k, k < 4 ∧ (b.vertex k).j = b.bbox.y1) ∧ (∃ k, k < 4 ∧ (b.vertex k).j = b.bbox.y2) := by
  have hall : ∀ k, b.bbox.x1 ≤ (b.vertex k).i ∧ (b.vertex k).i ≤ b.bbox.x2 ∧
      b.bbox.y1 ≤ (b.vertex k).j ∧ (b.vertex k).j ≤ b.bbox.y2 := by
    intro k
    simp only [MCOBBox.vertex, MCOBBox.bbox, stdMin_eq_min, stdMax_eq_max, MCVector2d.add_i,
      MCVector2d.add_j]
    rcases MCOBBox.m_v_cases b (k &&& 3) with e | e | e | e <;> rw [e] <;>
      simp only [min_le_iff, le_max_iff, le_refl, true_or, or_true, and_self]
  refine ⟨⟨(hall 0).1.trans (hall 0).2.1, (hall 0).2.2.1.trans (hall 0).2.2.2⟩, hall, ?_, ?_, ?_, ?_⟩
  · rcases four_min_cases (b.m_v0 + b.m_p).i (b.m_v1 + b.m_p).i (b.m_v2 + b.m_p).i
      (b.m_v3 + b.m_p).i with h | h | h | h
    · exact ⟨0, by decide, h.symm⟩
    · exact ⟨1, by decide, h.symm⟩
    · exact ⟨2, by decide, h.symm⟩
    · exact ⟨3, by decide, h.symm⟩
  · rcases four_max_cases (b.m_v0 + b.m_p).i (b.m_v1 + b.m_p).i (b.m_v2 + b.m_p).i
      (b.m_v3 + b.m_p).i with h | h | h | h
    · exact ⟨0, by decide, h.symm⟩
    · exact ⟨1, by decide, h.symm⟩
    · exact ⟨2, by decide, h.symm⟩
    · exact ⟨3, by decide, h.symm⟩
  · rcases four_min_cases (b.m_v0 + b.m_p).j (b.m_v1 + b.m_p).j (b.m_v2 + b.m_p).j
      (b.m_v3 + b.m_p).j with h | h | h | h
    · exact ⟨0, by decide, h.symm⟩
    · exact ⟨1, by decide, h.symm⟩
    · exact ⟨2, by decide, h.symm⟩
    · exact ⟨3, by decide, h.symm⟩
  · rcases four_max_cases (b.m_v0 + b.m_p).j (b.m_v1 + b.m_p).j (b.m_v2 + b.m_p).j
      (b.m_v3 + b.m_p).j with h | h | h | h
    · exact ⟨0, by decide, h.symm⟩
    · exact ⟨1, by decide, h.symm⟩
    · exact ⟨2, by decide, h.symm⟩
    · exact ⟨3, by decide, h.symm⟩

/-- C8: after `scale(s)` the half extents are `s` times the old ones, every corner vector
`vertex(k) - location()` is `s` times its old value, and location and angle are unchanged. -/
theorem scale_scales_extents_and_corners [CommRing T] (b : MCOBBox T) (s : T) :
    (b.scale s).hx = s * b.hx ∧ (b.scale s).hy = s * b.hy ∧
    (∀ k, ((b.scale s).vertex k - (b.scale s).location).i = s * (b.vertex k - b.location).i ∧
      ((b.scale s).vertex k - (b.scale s).location).j = s * (b.vertex k - b.location).j) ∧
    (b.scale s).location = b.location ∧ (b.scale s).angle = b.angle := by
  refine ⟨mul_comm _ _, mul_comm _ _, ?_, rfl, rfl⟩
  intro k
  simp only [MCOBBox.vertex, MCOBBox.location, MCOBBox.m_v, MCVector2d.sub_i, MCVector2d.sub_j,
    MCVector2d.add_i, MCVector2d.add_j]
  split <;> simp only [MCOBBox.scale, MCVector2d.scaled] <;> constructor <;> ring

/-- C9: the constructor sets angle 0 and the given location, and lays the vertices out as
documented: `vertex(0) = loc + (-hx,-hy)`, `vertex(1) = loc + (-hx,hy)`,
`vertex(2) = loc + (hx,hy)`, `vertex(3) = loc + (hx,-hy)`. -/
theorem constructor_layout [CommRing T] (hx hy : T) (loc : MCVector2d T) :
    (MCOBBox.mk0 hx hy loc).angle = 0 ∧ (MCOBBox.mk0 hx hy loc).location = loc ∧
    (MCOBBox.mk0 hx hy loc).vertex 0 = loc + ⟨-hx, -hy⟩ ∧
    (MCOBBox.mk0 hx hy loc).vertex 1 = loc + ⟨-hx, hy⟩ ∧
    (MCOBBox.mk0 hx hy loc).vertex 2 = loc + ⟨hx, hy⟩ ∧
    (MCOBBox.mk0 hx hy loc).vertex 3 = loc + ⟨hx, -hy⟩ := by
  refine ⟨rfl, rfl, ?_, ?_, ?_, ?_⟩ <;>
    · rw [MCVector2d.ext_iff2]
      simp [MCOBBox.mk0, add_comm]

/-- C10 fails as stated: `rotate(720)` stores 720, which is more than 360. -/
theorem rotate_angle_not_wrapped :
    ¬ (((MCOBBox.mk0 1 1 ⟨0, 0⟩).rotate quarterTurnLut 720).angle ≤ 360) := by
  simp [MCOBBox.rotate, MCOBBox.mk0, MCOBBox.angle]

/-- C10 as amended: `rotate(a)` stores the angle it is given, unwrapped: afterwards
`angle()` is `a`, so it is at most 360 exactly when `a` is. -/
theorem rotate_stores_given_angle [Ring T] (tr : MCTrigonom T) (b : MCOBBox T) (a : Nat) :
    (b.rotate tr a).angle = a ∧ ((b.rotate tr a).angle ≤ 360 ↔ a ≤ 360) := by
  have h : (b.rotate tr a).angle = a := by
    unfold MCOBBox.rotate MCOBBox.angle
    split
    · rfl
    · rename_i h
      exact (not_not.mp h).symm
  exact ⟨h, by rw [h]⟩

/-- C11 fails as stated: the constructor accepts a zero and a negative half extent and
produces a box. -/
theorem construct_accepts_degenerate :
    (0 : ℚ) ≤ 0 ∧ (-1 : ℚ) ≤ 0 ∧
      MCOBBox.construct (0 : ℚ) (-1) ⟨0, 0⟩ = some (MCOBBox.mk0 0 (-1) ⟨0, 0⟩) ∧
      MCOBBox.construct (0 : ℚ) (-1) ⟨0, 0⟩ ≠ none := by
  refine ⟨le_refl _, by norm_num, rfl, ?_⟩
  simp [MCOBBox.construct]

/-- C11 as amended: construction never rejects. For every `hx`, `hy` (zero and negative
included) `MCOBBox(hx, hy, loc)` produces a box, with `hx() = hx`, `hy() = hy`,
`location() = loc` and `angle() = 0`. -/
theorem construct_always_succeeds [Ring T] (hx hy : T) (loc : MCVector2d T) :
    ∃ b, MCOBBox.construct hx hy loc = some b ∧
      b.hx = hx ∧ b.hy = hy ∧ b.location = loc ∧ b.angle = 0 :=
  ⟨MCOBBox.mk0 hx hy loc, rfl, rfl, rfl, rfl, rfl⟩

/-- C17 (code defect, evaluated): the overload for an axis-aligned box hands the stored
vertex vectors `m_v[k]` to `MCBBox::contains` without adding the location. For a unit square
at (10, 10) and the square (-2,-2)..(2,2) it answers true although no world-space vertex of
the box lies in the square and no corner of the square lies in the box; for the same box and
the strip (21/2, 0)..(20, 20) it answers false although `vertex(2)` and `vertex(3)` lie in
the strip. Both hold whether or not the boundary of the axis-aligned box counts. -/
theorem intersectsBBox_disagrees_with_world_vertices (z : SIGN) (closed : Bool) :
    (farBox.intersectsBBox z closed originSquare = true ∧
      (∀ k, originSquare.contains closed (farBox.vertex k) = false) ∧
      farBox.contains z ⟨originSquare.x1, originSquare.y1⟩ = false ∧
      farBox.contains z ⟨originSquare.x1, originSquare.y2⟩ = false ∧
      farBox.contains z ⟨originSquare.x2, originSquare.y1⟩ = false ∧
      farBox.contains z ⟨originSquare.x2, originSquare.y2⟩ = false) ∧
    (farBox.intersectsBBox z closed rightStrip = false ∧
      rightStrip.contains closed (farBox.vertex 2) = true ∧
      rightStrip.contains closed (farBox.vertex 3) = true) := by
  refine ⟨⟨?_, ?_, ?_, ?_, ?_, ?_⟩, ?_, ?_, ?_⟩
  · cases closed <;>
      norm_num [farBox, originSquare, MCOBBox.mk0, MCOBBox.intersectsBBox, MCBBox.contains]
  · intro k
    simp only [MCOBBox.vertex, MCOBBox.m_v]
    cases closed <;> split <;>
      norm_num [farBox, originSquare, MCOBBox.mk0, MCBBox.contains]
  · norm_num [farBox, originSquare, MCOBBox.mk0, MCOBBox.contains, MCMathUtil.sign,
      MCVector2d.cross]
    decide
  · norm_num [farBox, originSquare, MCOBBox.mk0, MCOBBox.contains, MCMathUtil.sign,
      MCVector2d.cross]
    decide
  · norm_num [farBox, originSquare, MCOBBox.mk0, MCOBBox.contains, MCMathUtil.sign,
      MCVector2d.cross]
    decide
  · norm_num [farBox, originSquare, MCOBBox.mk0, MCOBBox.contains, MCMathUtil.sign,
      MCVector2d.cross]
    decide
  · cases closed <;>
      norm_num [farBox, rightStrip, MCOBBox.mk0, MCOBBox.intersectsBBox, MCBBox.contains,
        MCOBBox.contains, MCMathUtil.sign, MCVector2d.cross] <;> decide
  · cases closed <;>
      norm_num [farBox, rightStrip, MCOBBox.mk0, MCOBBox.vertex, MCOBBox.m_v, MCBBox.contains]
  · cases closed <;>
      norm_num [farBox, rightStrip, MCOBBox.mk0, MCOBBox.vertex, MCOBBox.m_v, MCBBox.contains]

/-- C20: every state reachable from the constructor by `rotate`, `translate` and `scale`
keeps the rectangle symmetry: `m_v[2] = -m_v[0]` and `m_v[3] = -m_v[1]`, so that
`vertex(0) + vertex(2) = vertex(1) + vertex(3) = 2 * location()`. -/
theorem reachable_keeps_mirror_symmetry [CommRing T] (tr : MCTrigonom T) (b : MCOBBox T)
    (h : MCOBBox.Reachable tr b) :
    (b.m_v 2 = ⟨-(b.m_v 0).i, -(b.m_v 0).j⟩ ∧ b.m_v 3 = ⟨-(b.m_v 1).i, -(b.m_v 1).j⟩) ∧
    ((b.vertex 0 + b.vertex 2).i = 2 * b.location.i ∧
      (b.vertex 0 + b.vertex 2).j = 2 * b.location.j) ∧
    ((b.vertex 1 + b.vertex 3).i = 2 * b.location.i ∧
      (b.vertex 1 + b.vertex 3).j = 2 * b.location.j) := by
  have hm := MCOBBox.Reachable.mirror h
  refine ⟨hm, ?_, ?_⟩
  · simp only [MCOBBox.vertex_zero, MCOBBox.vertex_two, MCVector2d.add_i, MCVector2d.add_j,
      MCOBBox.location]
    have h2 : b.m_v2 = ⟨-b.m_v0.i, -b.m_v0.j⟩ := hm.1
    rw [h2]
    constructor <;> ring
  · simp only [MCOBBox.vertex_one, MCOBBox.vertex_three, MCVector2d.add_i, MCVector2d.add_j,
      MCOBBox.location]
    have h3 : b.m_v3 = ⟨-b.m_v1.i, -b.m_v1.j⟩ := hm.2
    rw [h3]
    constructor <;> ring

/-- C20 at a concrete reachable state: a 2 by 1 box at (5, 7), turned to 90 degrees, scaled by
3, moved to (-4, 9) and turned to 180 degrees. -/
theorem reachable_keeps_mirror_symmetry_witness :
    (((((MCOBBox.mk0 2 1 ⟨5, 7⟩).rotate quarterTurnLut 90).scale 3).translate
        ⟨-4, 9⟩).rotate quarterTurnLut 180).m_v 2 = ⟨3, -6⟩ ∧
    (((((MCOBBox.mk0 2 1 ⟨5, 7⟩).rotate quarterTurnLut 90).scale 3).translate
        ⟨-4, 9⟩).rotate quarterTurnLut 180).m_v 0 = ⟨-3, 6⟩ ∧
    ((((((MCOBBox.mk0 2 1 ⟨5, 7⟩).rotate quarterTurnLut 90).scale 3).translate
        ⟨-4, 9⟩).rotate quarterTurnLut 180).vertex 0 +
      (((((MCOBBox.mk0 2 1 ⟨5, 7⟩).rotate quarterTurnLut 90).scale 3).translate
        ⟨-4, 9⟩).rotate quarterTurnLut 180).vertex 2).i = 2 * (-4) := by
  have hr : MCOBBox.Reachable quarterTurnLut
      (((((MCOBBox.mk0 2 1 ⟨5, 7⟩).rotate quarterTurnLut 90).scale 3).translate
        ⟨-4, 9⟩).rotate quarterTurnLut 180) :=
    MCOBBox.Reachable.rotate _ _ (MCOBBox.Reachable.translate _ _
      (MCOBBox.Reachable.scale _ _ (MCOBBox.Reachable.rotate _ _
        (MCOBBox.Reachable.ctor 2 1 ⟨5, 7⟩))))
  have hs := reachable_keeps_mirror_symmetry quarterTurnLut _ hr
  refine ⟨?_, ?_, hs.2.1.1⟩
  · rw [MCVector2d.ext_iff2]
    norm_num [MCOBBox.m_v, MCOBBox.rotate, MCOBBox.scale, MCOBBox.translate, MCOBBox.mk0,
      MCVector2d.scaled, quarterTurnLut, MCTrigonom.rotatedX, MCTrigonom.rotatedY]
  · rw [MCVector2d.ext_iff2]
    norm_num [MCOBBox.m_v, MCOBBox.rotate, MCOBBox.scale, MCOBBox.translate, MCOBBox.mk0,
      MCVector2d.scaled, quarterTurnLut, MCTrigonom.rotatedX, MCTrigonom.rotatedY]

/-- C12: with `L` the measured length and `d` the normalised direction of the velocity, `m` the
mass and `c` the effective linear coefficient, `updateForce` adds `-d * c * m` to the
accumulated force when `L ≥ 1` and `-d * L * c * m` when `L < 1`; in both cases this is
`-d * min(L, 1) * c * m`, and the two expressions coincide at `L = 1`. -/
theorem updateForce_adds_linear_friction [LinearOrderedField T] (ops : FastVectorOps T)
    (g : MCFrictionGenerator T) (o : MCObject T) :
    (1 ≤ ops.lengthFast o.physicsComponent.velocity →
      (g.updateForce ops o).physicsComponent.forces = o.physicsComponent.forces +
        (((ops.normalizedFast o.physicsComponent.velocity).neg.scaled g.m_coeffLinTot).scaled
          o.physicsComponent.mass)) ∧
    (ops.lengthFast o.physicsComponent.velocity < 1 →
      (g.updateForce ops o).physicsComponent.forces = o.physicsComponent.forces +
        ((((ops.normalizedFast o.physicsComponent.velocity).neg.scaled
          (ops.lengthFast o.physicsComponent.velocity)).scaled g.m_coeffLinTot).scaled
            o.physicsComponent.mass)) ∧
    (g.updateForce ops o).physicsComponent.forces = o.physicsComponent.forces +
      ((((ops.normalizedFast o.physicsComponent.velocity).neg.scaled
        (min (ops.lengthFast o.physicsComponent.velocity) 1)).scaled g.m_coeffLinTot).scaled
          o.physicsComponent.mass) ∧
    (ops.lengthFast o.physicsComponent.velocity = 1 →
      (((ops.normalizedFast o.physicsComponent.velocity).neg.scaled g.m_coeffLinTot).scaled
          o.physicsComponent.mass) =
        ((((ops.normalizedFast o.physicsComponent.velocity).neg.scaled
          (ops.lengthFast o.physicsComponent.velocity)).scaled g.m_coeffLinTot).scaled
            o.physicsComponent.mass)) := by
  have hforces := MCFrictionGenerator.updateForce_forces ops g o
  refine ⟨fun h => ?_, fun h => ?_, ?_, fun h => ?_⟩
  · rw [hforces, if_pos h]
  · rw [hforces, if_neg (not_le.mpr h)]
  · rw [hforces]
    split
    · rename_i h
      rw [min_eq_right h, MCVector2d.ext_iff2]
      simp [MCVector2d.scaled]
    · rename_i h
      rw [min_eq_left (not_le.mp h).le]
  · rw [h, MCVector2d.ext_iff2]
    simp [MCVector2d.scaled]

/-- C12 at two concrete objects: the slow one (speed 1/2) gets the force scaled by its speed,
the fast one (speed 3) the full force. -/
theorem updateForce_adds_linear_friction_witness :
    (sampleGenerator.updateForce axisOps slowObject).physicsComponent.forces = ⟨-4, 1⟩ ∧
    (sampleGenerator.updateForce axisOps fastObject).physicsComponent.forces = ⟨-10, 0⟩ := by
  have hs : axisOps.lengthFast slowObject.physicsComponent.velocity < 1 := by
    norm_num [axisOps, slowObject, abs_of_pos]
  have hf : 1 ≤ axisOps.lengthFast fastObject.physicsComponent.velocity := by
    norm_num [axisOps, fastObject, abs_of_pos]
  have h1 := (updateForce_adds_linear_friction axisOps sampleGenerator slowObject).2.1 hs
  have h2 := (updateForce_adds_linear_friction axisOps sampleGenerator fastObject).1 hf
  rw [h1, h2]
  constructor <;> rw [MCVector2d.ext_iff2] <;>
    norm_num [axisOps, slowObject, fastObject, sampleGenerator, MCFrictionGenerator.mk0,
      MCVector2d.neg, MCVector2d.scaled, abs_of_pos, abs_of_neg]

/-- C13: two objects with the same positive mass and the same unit velocity direction, under
one generator with non-zero effective linear coefficient: if the first has speed `s1 < 1`
(a speed is a length, `0 ≤ s1`) and the second speed `s2 ≥ 1`, the force added to the first
is strictly smaller in magnitude (compared through the squared length) than the force
added to the second. -/
theorem slower_object_gets_smaller_friction [LinearOrderedField T] (ops : FastVectorOps T)
    (g : MCFrictionGenerator T) (o1 o2 : MCObject T) (d : MCVector2d T)
    (hmass : o1.physicsComponent.mass = o2.physicsComponent.mass)
    (hpos : 0 < o1.physicsComponent.mass)
    (hd1 : ops.normalizedFast o1.physicsComponent.velocity = d)
    (hd2 : ops.normalizedFast o2.physicsComponent.velocity = d)
    (hunit : normSq d = 1)
    (hc : g.m_coeffLinTot ≠ 0)
    (hs1 : ops.lengthFast o1.physicsComponent.velocity < 1)
    (hs1' : 0 ≤ ops.lengthFast o1.physicsComponent.velocity)
    (hs2 : 1 ≤ ops.lengthFast o2.physicsComponent.velocity) :
    normSq ((g.updateForce ops o1).physicsComponent.forces - o1.physicsComponent.forces) <
      normSq ((g.updateForce ops o2).physicsComponent.forces - o2.physicsComponent.forces) := by
  rw [MCFrictionGenerator.updateForce_forces ops g o1,
    MCFrictionGenerator.updateForce_forces ops g o2, if_neg (not_le.mpr hs1), if_pos hs2,
    hd1, hd2, ← hmass]
  simp only [normSq, MCVector2d.sub_i, MCVector2d.sub_j, MCVector2d.add_i, MCVector2d.add_j,
    MCVector2d.scaled, MCVector2d.neg] at hunit ⊢
  have hcm : 0 < (g.m_coeffLinTot * o1.physicsComponent.mass) ^ 2 :=
    lt_of_le_of_ne (sq_nonneg _) (pow_ne_zero 2 (mul_ne_zero hc hpos.ne')).symm
  have hL : (ops.lengthFast o1.physicsComponent.velocity) ^ 2 < 1 := by nlinarith
  have e1 : (o1.physicsComponent.forces.i +
        -d.i * ops.lengthFast o1.physicsComponent.velocity * g.m_coeffLinTot *
          o1.physicsComponent.mass - o1.physicsComponent.forces.i) *
      (o1.physicsComponent.forces.i +
        -d.i * ops.lengthFast o1.physicsComponent.velocity * g.m_coeffLinTot *
          o1.physicsComponent.mass - o1.physicsComponent.forces.i) +
      (o1.physicsComponent.forces.j +
        -d.j * ops.lengthFast o1.physicsComponent.velocity * g.m_coeffLinTot *
          o1.physicsComponent.mass - o1.physicsComponent.forces.j) *
      (o1.physicsComponent.forces.j +
        -d.j * ops.lengthFast o1.physicsComponent.velocity * g.m_coeffLinTot *
          o1.physicsComponent.mass - o1.physicsComponent.forces.j) =
      (d.i * d.i + d.j * d.j) * ((ops.lengthFast o1.physicsComponent.velocity) ^ 2 *
        (g.m_coeffLinTot * o1.physicsComponent.mass) ^ 2) := by ring
  have e2 : (o2.physicsComponent.forces.i + -d.i * g.m_coeffLinTot * o1.physicsComponent.mass -
        o2.physicsComponent.forces.i) *
      (o2.physicsComponent.forces.i + -d.i * g.m_coeffLinTot * o1.physicsComponent.mass -
        o2.physicsComponent.forces.i) +
      (o2.physicsComponent.forces.j + -d.j * g.m_coeffLinTot * o1.physicsComponent.mass -
        o2.physicsComponent.forces.j) *
      (o2.physicsComponent.forces.j + -d.j * g.m_coeffLinTot * o1.physicsComponent.mass -
        o2.physicsComponent.forces.j) =
      (d.i * d.i + d.j * d.j) * (g.m_coeffLinTot * o1.physicsComponent.mass) ^ 2 := by ring
  rw [e1, e2, hunit, one_mul, one_mul]
  calc (ops.lengthFast o1.physicsComponent.velocity) ^ 2 *
        (g.m_coeffLinTot * o1.physicsComponent.mass) ^ 2
      < 1 * (g.m_coeffLinTot * o1.physicsComponent.mass) ^ 2 :=
        mul_lt_mul_of_pos_right hL hcm
    _ = (g.m_coeffLinTot * o1.physicsComponent.mass) ^ 2 := one_mul _

/-- C13 at the slow and the fast sample object (both of mass 2, moving along the x axis):
the squared magnitudes of the added forces are 25 and 100. -/
theorem slower_object_gets_smaller_friction_witness :
    normSq ((sampleGenerator.updateForce axisOps slowObject).physicsComponent.forces -
        slowObject.physicsComponent.forces) <
      normSq ((sampleGenerator.updateForce axisOps fastObject).physicsComponent.forces -
        fastObject.physicsComponent.forces) :=
  slower_object_gets_smaller_friction axisOps sampleGenerator slowObject fastObject ⟨1, 0⟩
    rfl (by norm_num [slowObject])
    (by rw [MCVector2d.ext_iff2]; norm_num [axisOps, slowObject, abs_of_pos])
    (by rw [MCVector2d.ext_iff2]; norm_num [axisOps, fastObject, abs_of_pos])
    (by norm_num [normSq])
    (by norm_num [sampleGenerator, MCFrictionGenerator.mk0])
    (by norm_num [axisOps, slowObject, abs_of_pos])
    (by norm_num [axisOps, slowObject, abs_of_pos])
    (by norm_num [axisOps, fastObject, abs_of_pos])

/-- C14: for a generator built by the constructor (so that the rotational coefficient
`c_rot` is an absolute value) and an object of mass `m ≥ 0` with angular velocity `a`:
with a shape and `a > 0` the torque `-c_rot * m` is added, with a shape and `a < 0` the torque
`+c_rot * m`, and with `a = 0` or without a shape nothing. So the added torque has magnitude
`c_rot * m` whenever it is added, whatever `|a|` is, and never has the sign of `a`. -/
theorem updateForce_adds_opposing_torque [LinearOrderedField T] (ops : FastVectorOps T)
    (coeffLin coeffRot gravityK : T) (o : MCObject T) (hm : 0 ≤ o.physicsComponent.mass) :
    (o.hasShape = true → 0 < o.physicsComponent.angularVelocity →
      ((MCFrictionGenerator.mk0 coeffLin coeffRot gravityK).updateForce ops
          o).physicsComponent.torque =
        o.physicsComponent.torque +
          -((MCFrictionGenerator.mk0 coeffLin coeffRot gravityK).m_coeffRotTot *
            o.physicsComponent.mass)) ∧
    (o.hasShape = true → o.physicsComponent.angularVelocity < 0 →
      ((MCFrictionGenerator.mk0 coeffLin coeffRot gravityK).updateForce ops
          o).physicsComponent.torque =
        o.physicsComponent.torque +
          (MCFrictionGenerator.mk0 coeffLin coeffRot gravityK).m_coeffRotTot *
            o.physicsComponent.mass) ∧
    (o.hasShape = false ∨ o.physicsComponent.angularVelocity = 0 →
      ((MCFrictionGenerator.mk0 coeffLin coeffRot gravityK).updateForce ops
          o).physicsComponent.torque = o.physicsComponent.torque) ∧
    (o.hasShape = true → o.physicsComponent.angularVelocity ≠ 0 →
      |((MCFrictionGenerator.mk0 coeffLin coeffRot gravityK).updateForce ops
          o).physicsComponent.torque - o.physicsComponent.torque| =
        (MCFrictionGenerator.mk0 coeffLin coeffRot gravityK).m_coeffRotTot *
          o.physicsComponent.mass) ∧
    (((MCFrictionGenerator.mk0 coeffLin coeffRot gravityK).updateForce ops
          o).physicsComponent.torque - o.physicsComponent.torque) *
        o.physicsComponent.angularVelocity ≤ 0 := by
  have ht := MCFrictionGenerator.updateForce_torque ops
    (MCFrictionGenerator.mk0 coeffLin coeffRot gravityK) o
  have hc : 0 ≤ (MCFrictionGenerator.mk0 coeffLin coeffRot gravityK).m_coeffRotTot :=
    abs_nonneg _
  have hcm : 0 ≤ (MCFrictionGenerator.mk0 coeffLin coeffRot gravityK).m_coeffRotTot *
      o.physicsComponent.mass := mul_nonneg hc hm
  refine ⟨fun hs ha => ?_, fun hs ha => ?_, fun h => ?_, fun hs ha => ?_, ?_⟩
  · rw [ht, if_pos hs, if_pos ha]
    ring
  · rw [ht, if_pos hs, if_neg (not_lt.mpr ha.le), if_pos ha]
    ring
  · rw [ht]
    rcases h with h | h
    · simp [h]
    · simp [h]
  · rw [ht, if_pos hs]
    rcases lt_or_gt_of_ne ha with hneg | hpos
    · rw [if_neg (not_lt.mpr hneg.le), if_pos hneg, add_sub_cancel_left, mul_one,
        abs_of_nonneg hcm]
    · rw [if_pos hpos, add_sub_cancel_left, mul_one, abs_of_nonpos (by linarith)]
      ring
  · rw [ht, add_sub_cancel_left]
    split_ifs with hs hpos hneg
    · have : -(MCFrictionGenerator.mk0 coeffLin coeffRot gravityK).m_coeffRotTot *
          o.physicsComponent.mass * 1 ≤ 0 := by linarith
      exact mul_nonpos_of_nonpos_of_nonneg this hpos.le
    · have : 0 ≤ (MCFrictionGenerator.mk0 coeffLin coeffRot gravityK).m_coeffRotTot *
          o.physicsComponent.mass * 1 := by linarith
      exact mul_nonpos_of_nonneg_of_nonpos this hneg.le
    · simp
    · simp

/-- C14 at the sample objects: the forwards spinning one (angular velocity 4) and the
backwards spinning one (angular velocity -1) both receive a torque of magnitude 3/5, against
their spin. -/
theorem updateForce_adds_opposing_torque_witness :
    (sampleGenerator.updateForce axisOps slowObject).physicsComponent.torque = 7 + -(3 / 5) ∧
    (sampleGenerator.updateForce axisOps fastObject).physicsComponent.torque = 0 + 3 / 5 := by
  have h1 := (updateForce_adds_opposing_torque axisOps (1 / 2) 3 (-10) slowObject
    (by norm_num [slowObject])).1 rfl (by norm_num [slowObject])
  have h2 := (updateForce_adds_opposing_torque axisOps (1 / 2) 3 (-10) fastObject
    (by norm_num [fastObject])).2.1 rfl (by norm_num [fastObject])
  constructor
  · rw [sampleGenerator, h1]
    norm_num [slowObject, MCFrictionGenerator.mk0, ROTATION_DECAY, abs_of_neg]
  · rw [sampleGenerator, h2]
    norm_num [fastObject, MCFrictionGenerator.mk0, ROTATION_DECAY, abs_of_neg]

/-- C15: `updateForce` only adds to the accumulators. Mass, velocity and angular velocity
(and the shape) are unchanged, and the accumulated force and torque afterwards are their old
values plus the friction contribution, which is what the call yields from empty accumulators
and so does not depend on what was accumulated before. -/
theorem updateForce_only_adds [LinearOrderedField T] (ops : FastVectorOps T)
    (g : MCFrictionGenerator T) (o : MCObject T) :
    (g.updateForce ops o).physicsComponent.mass = o.physicsComponent.mass ∧
    (g.updateForce ops o).physicsComponent.velocity = o.physicsComponent.velocity ∧
    (g.updateForce ops o).physicsComponent.angularVelocity =
      o.physicsComponent.angularVelocity ∧
    (g.updateForce ops o).physicsComponent.forces = o.physicsComponent.forces +
      (g.updateForce ops
        { o with physicsComponent :=
          { o.physicsComponent with forces := ⟨0, 0⟩, torque := 0 } }).physicsComponent.forces ∧
    (g.updateForce ops o).physicsComponent.torque = o.physicsComponent.torque +
      (g.updateForce ops
        { o with physicsComponent :=
          { o.physicsComponent with forces := ⟨0, 0⟩, torque := 0 } }).physicsComponent.torque := by
  obtain ⟨h1, h2, h3, _⟩ := MCFrictionGenerator.updateForce_unchanged ops g o
  refine ⟨h1, h2, h3, ?_, ?_⟩
  · rw [MCFrictionGenerator.updateForce_forces ops g o,
      MCFrictionGenerator.updateForce_forces ops g _, MCVector2d.ext_iff2]
    simp
  · rw [MCFrictionGenerator.updateForce_torque ops g o,
      MCFrictionGenerator.updateForce_torque ops g _]
    simp

/-- C16: a pair that is apart for `k` ticks, overlaps for `N + 1` consecutive ticks and is
apart again for `j + 1` ticks: starting without contact, the first overlap tick fires the
collision event, the `N` further overlap ticks fire nothing, the first tick apart fires the
separation event, and no other tick fires anything; in total exactly one collision and one
separation event, and the pair ends without contact. -/
theorem contact_episode_fires_one_collision_one_separation (k N j : Nat) :
    runTicks (List.replicate k false ++
        (List.replicate (N + 1) true ++ List.replicate (j + 1) false)) CollisionState.absent =
      (CollisionState.absent,
        List.replicate k [] ++ ([CollisionEvent.collision] :: List.replicate N [] ++
          ([CollisionEvent.separation] :: List.replicate j []))) ∧
    (runTicks (List.replicate k false ++
        (List.replicate (N + 1) true ++ List.replicate (j + 1) false))
          CollisionState.absent).2.flatten =
      [CollisionEvent.collision, CollisionEvent.separation] := by
  have h : runTicks (List.replicate k false ++
        (List.replicate (N + 1) true ++ List.replicate (j + 1) false)) CollisionState.absent =
      (CollisionState.absent,
        List.replicate k [] ++ ([CollisionEvent.collision] :: List.replicate N [] ++
          ([CollisionEvent.separation] :: List.replicate j []))) := by
    rw [runTicks_append, runTicks_apart, runTicks_append]
    have e1 : runTicks (List.replicate (N + 1) true) CollisionState.absent =
        (CollisionState.present, [CollisionEvent.collision] :: List.replicate N []) := by
      simp [List.replicate_succ, runTicks, collisionTick, detectCollisions,
        iterateCurrentCollisions, runTicks_touching]
    have e2 : runTicks (List.replicate (j + 1) false) CollisionState.present =
        (CollisionState.absent, [CollisionEvent.separation] :: List.replicate j []) := by
      simp [List.replicate_succ, runTicks, collisionTick, detectCollisions,
        iterateCurrentCollisions, runTicks_apart]
    simp [e1, e2]
  refine ⟨h, ?_⟩
  rw [h]
  simp

/-- C18: `AI::steerControl` always finishes (the normalisation loop ends for every target
angle, car angle and previous difference), and whenever it calls `Car::steer` the control
value it passes lies in the closed interval `[0, 1.5]`. -/
theorem steerControl_control_capped (angle : ℚ) (carAngle : Int) (lastDiff : ℚ) :
    (∃ fuel r, steerControl fuel angle carAngle lastDiff = some r) ∧
    ∀ fuel r dir control, steerControl fuel angle carAngle lastDiff = some r →
      r.steer = some (dir, control) → 0 ≤ control ∧ control ≤ 15 / 10 := by
  constructor
  · obtain ⟨fuel, d, hd, _⟩ :=
      normalizeDiff_terminates (angle - ((Int.tmod carAngle 360 : Int) : ℚ))
    refine ⟨fuel, ?_⟩
    simp only [steerControl, hd]
    exact ⟨_, rfl⟩
  · intro fuel r dir control hr hs
    unfold steerControl at hr
    cases hn : normalizeDiff fuel (angle - ((Int.tmod carAngle 360 : Int) : ℚ)) with
    | none => simp [hn] at hr
    | some diff =>
      simp only [hn, Option.some.injEq] at hr
      subst hr
      simp only at hs
      split_ifs at hs with h1 h2 h3 h4 h5 h6 h7 h8 <;>
        simp only [Option.some.injEq, Prod.mk.injEq, reduceCtorEq] at hs <;>
        obtain ⟨-, hc⟩ := hs <;> subst hc <;> constructor <;> linarith

/-- C18 at a concrete call: target direction 90 degrees, car angle 0, previous difference 0.
The raw control value is 4.5 and the car is steered left with 1.5. -/
theorem steerControl_control_capped_witness :
    steerControl 3 90 0 0 = some ⟨some (Steer.Left, 15 / 10), 90⟩ ∧
      (0 : ℚ) ≤ 15 / 10 ∧ (15 / 10 : ℚ) ≤ 15 / 10 := by
  have h : steerControl 3 90 0 0 = some ⟨some (Steer.Left, 15 / 10), 90⟩ := by
    simp [steerControl, normalizeDiff]
    norm_num
  exact ⟨h, (steerControl_control_capped 90 0 0).2 3 _ Steer.Left (15 / 10) h rfl⟩

/-- C19 (code defect, evaluated): the guard of the `--lang` branch reads `(i + i) <
args.size()`. With `--lang fi` after the track file the guard is `4 < 4`, so the option is
not recognised: no language is set and both `--lang` and `fi` are taken as the track file,
`fi` last. The same arguments with the option first are parsed as documented. -/
theorem parseArgs_misses_lang_after_track_file :
    parseArgs ["dustrac-editor", "track.trk", "--lang", "fi"] =
      Except.ok { lang := "", m_trackFile := "fi" } ∧
    parseArgs ["dustrac-editor", "--lang", "fi", "track.trk"] =
      Except.ok { lang := "fi", m_trackFile := "track.trk" } := by
  constructor <;> simp [parseArgs, parseArgsLoop]

/-- C21: for every configured `coeffLin`, `coeffRot` and gravity component `k` (of any sign)
the effective linear and rotational coefficients are non-negative, and each is zero exactly
when its configured coefficient or `k` is zero. Hence, for an object of non-negative mass
whose velocity has a non-negative measured length, the force added by `updateForce` has no
positive component along the velocity direction. -/
theorem friction_coefficients_nonneg [LinearOrderedField T] (coeffLin coeffRot gravityK : T) :
    0 ≤ (MCFrictionGenerator.mk0 coeffLin coeffRot gravityK).m_coeffLinTot ∧
    0 ≤ (MCFrictionGenerator.mk0 coeffLin coeffRot gravityK).m_coeffRotTot ∧
    ((MCFrictionGenerator.mk0 coeffLin coeffRot gravityK).m_coeffLinTot = 0 ↔
      coeffLin = 0 ∨ gravityK = 0) ∧
    ((MCFrictionGenerator.mk0 coeffLin coeffRot gravityK).m_coeffRotTot = 0 ↔
      coeffRot = 0 ∨ gravityK = 0) ∧
    ∀ (ops : FastVectorOps T) (o : MCObject T), 0 ≤ o.physicsComponent.mass →
      0 ≤ ops.lengthFast o.physicsComponent.velocity →
      dot (((MCFrictionGenerator.mk0 coeffLin coeffRot gravityK).updateForce ops
          o).physicsComponent.forces - o.physicsComponent.forces)
        (ops.normalizedFast o.physicsComponent.velocity) ≤ 0 := by
  have hlin : 0 ≤ (MCFrictionGenerator.mk0 coeffLin coeffRot gravityK).m_coeffLinTot :=
    abs_nonneg _
  refine ⟨hlin, abs_nonneg _, ?_, ?_, ?_⟩
  · simp [MCFrictionGenerator.mk0]
  · simp [MCFrictionGenerator.mk0, ROTATION_DECAY]
  · intro ops o hm hL
    rw [MCFrictionGenerator.updateForce_forces]
    simp only [dot, MCVector2d.sub_i, MCVector2d.sub_j, MCVector2d.add_i, MCVector2d.add_j,
      add_sub_cancel_left]
    have hcm : 0 ≤ (MCFrictionGenerator.mk0 coeffLin coeffRot gravityK).m_coeffLinTot *
        o.physicsComponent.mass := mul_nonneg hlin hm
    have hdd : 0 ≤ (ops.normalizedFast o.physicsComponent.velocity).i *
          (ops.normalizedFast o.physicsComponent.velocity).i +
        (ops.normalizedFast o.physicsComponent.velocity).j *
          (ops.normalizedFast o.physicsComponent.velocity).j :=
      add_nonneg (mul_self_nonneg _) (mul_self_nonneg _)
    split_ifs with h
    · simp only [MCVector2d.scaled, MCVector2d.neg]
      nlinarith [mul_nonneg hdd hcm]
    · simp only [MCVector2d.scaled, MCVector2d.neg]
      nlinarith [mul_nonneg (mul_nonneg hdd hL) hcm]

/-- C21 at the sample generator (`coeffLin = 1/2`, `coeffRot = 3`, gravity `-10`) and the slow
sample object: the added force has component `-5` along the velocity direction. -/
theorem friction_coefficients_nonneg_witness :
    dot ((sampleGenerator.updateForce axisOps slowObject).physicsComponent.forces -
        slowObject.physicsComponent.forces)
      (axisOps.normalizedFast slowObject.physicsComponent.velocity) ≤ 0 :=
  (friction_coefficients_nonneg (1 / 2 : ℚ) 3 (-10)).2.2.2.2 axisOps slowObject
    (by norm_num [slowObject]) (by norm_num [axisOps, slowObject, abs_of_pos])

/-- C22: the oriented-box intersection test is symmetric, `a.intersects(b) = b.intersects(a)`,
for all box states and whatever `sign` returns at zero. -/
theorem intersects_symmetric [LinearOrderedRing T] (z : SIGN) (a b : MCOBBox T) :
    a.intersects z b = b.intersects z a := by
  rw [Bool.eq_iff_iff, MCOBBox.intersects_eq_true_iff, MCOBBox.intersects_eq_true_iff]
  exact Or.comm

/-- C23: `translate` changes only the location (half extents, angle and the four vertex
vectors are unchanged, and `location()` afterwards is the argument), and containment moves
with the box: the box translated to `location() + d` contains `p + d` exactly when the
original box contains `p`. -/
theorem contains_translation_invariant [LinearOrderedRing T] (z : SIGN) (b : MCOBBox T)
    (p d q : MCVector2d T) :
    ((b.translate q).hx = b.hx ∧ (b.translate q).hy = b.hy ∧ (b.translate q).angle = b.angle ∧
      (∀ k, (b.translate q).m_v k = b.m_v k) ∧ (b.translate q).location = q) ∧
    (b.translate (b.location + d)).contains z (p + d) = b.contains z p := by
  refine ⟨⟨rfl, rfl, rfl, fun _ => rfl, rfl⟩, ?_⟩
  have hq : (p + d) - (b.location + d) = p - b.m_p := by
    rw [MCVector2d.ext_iff2]
    simp [MCOBBox.location]
  simp only [MCOBBox.contains, MCOBBox.translate, hq]

/-- C24: `vertex(index)` is defined for every index and stays inside the four-element array:
`index & 0x3` is `index mod 4`, which is below 4, and
`vertex(n) = vertex(n mod 4) = m_v[n mod 4] + location()`. -/
theorem vertex_index_wraps [Add T] (b : MCOBBox T) (n : Nat) :
    n &&& 3 = n % 4 ∧ n &&& 3 < 4 ∧
    b.vertex n = b.vertex (n % 4) ∧ b.vertex n = b.m_v (n % 4) + b.location := by
  have h : n &&& 3 = n % 4 := Nat.and_pow_two_sub_one_eq_mod n 2
  have h' : n % 4 &&& 3 = n % 4 := by
    have := Nat.and_pow_two_sub_one_eq_mod (n % 4) 2
    simpa using this
  refine ⟨h, by rw [h]; exact Nat.mod_lt _ (by decide), ?_, ?_⟩
  · simp only [MCOBBox.vertex, h, h']
  · simp only [MCOBBox.vertex, h, MCOBBox.location]

/-- C25 fails as stated: `1e10` is a finite binary32 value, `1e10 - 360` rounds back to `1e10`
in binary32, and so the loop started at the initial difference `1e10` never ends: whatever
the bound on the number of iterations, it has not returned. -/
theorem normalizeDiffBinary32_never_ends_at_1e10 :
    IsBinary32 10000000000 ∧ roundBinary32 (10000000000 - 360) = 10000000000 ∧
      ∀ fuel, normalizeDiffBinary32 fuel 10000000000 = none :=
  ⟨roundBinary32_1e10.1, roundBinary32_1e10.2, normalizeDiffBinary32_1e10⟩

/-- C25 as amended: for every binary32 initial difference of magnitude below `2^27` the loop
ends, and on exit `diff` lies in `[-180, 180]` and differs from the initial value by an
integer multiple of 360; for a target angle in `[-180, 180]` and the car angle reduced by
`% 360` (the initial difference being the binary32 rounding of their difference) three rounds
of the loop are enough, i.e. at most two adjusting iterations before the round that leaves
the loop. -/
theorem normalizeDiffBinary32_ends_below_2_pow_27 :
    (∀ d : ℚ, IsBinary32 d → |d| < 2 ^ 27 →
      (∃ fuel r, normalizeDiffBinary32 fuel d = some r) ∧
      ∀ (fuel : Nat) (r : ℚ), normalizeDiffBinary32 fuel d = some r →
        -180 ≤ r ∧ r ≤ 180 ∧ ∃ k : ℤ, r - d = 360 * k) ∧
    (∀ (angle : ℚ) (carAngle : Int), -180 ≤ angle → angle ≤ 180 →
      ∃ r, normalizeDiffBinary32 3
        (roundBinary32 (angle - ((Int.tmod carAngle 360 : Int) : ℚ))) = some r) := by
  constructor
  · intro d hd hbig
    constructor
    · obtain ⟨fuel, r, hr, _⟩ := normalizeDiff_terminates d
      exact ⟨fuel, r, by rw [normalizeDiffBinary32_eq_exact fuel d hd hbig]; exact hr⟩
    · intro fuel r hr
      rw [normalizeDiffBinary32_eq_exact fuel d hd hbig] at hr
      exact normalizeDiff_result fuel d r hr
  · intro angle carAngle hlo hhi
    obtain ⟨h1, h2⟩ := tmod_360_bounds carAngle
    have h1' : (-360 : ℚ) < ((Int.tmod carAngle 360 : Int) : ℚ) := by exact_mod_cast h1
    have h2' : ((Int.tmod carAngle 360 : Int) : ℚ) < 360 := by exact_mod_cast h2
    have hx : |angle - ((Int.tmod carAngle 360 : Int) : ℚ)| ≤ 540 := by
      rw [abs_le]
      constructor <;> linarith
    obtain ⟨hrep, hsmall⟩ := roundBinary32_of_small _ hx
    have hbig : |roundBinary32 (angle - ((Int.tmod carAngle 360 : Int) : ℚ))| < 2 ^ 27 :=
      lt_of_le_of_lt hsmall (by norm_num)
    have hb : |roundBinary32 (angle - ((Int.tmod carAngle 360 : Int) : ℚ))| ≤
        180 + 360 * ((2 : ℕ) : ℚ) := by
      push_cast
      linarith
    obtain ⟨r, hr, _⟩ := normalizeDiff_of_bound 2 _ hb
    exact ⟨r, by rw [normalizeDiffBinary32_eq_exact 3 _ hrep hbig]; exact hr⟩

/-- The amended C25 at the initial difference 520 (target angle 170 degrees, car angle -350):
one adjusting iteration brings it to 160. -/
theorem normalizeDiffBinary32_ends_below_2_pow_27_witness :
    IsBinary32 520 ∧ normalizeDiffBinary32 3 520 = some 160 ∧
      (-180 : ℚ) ≤ 160 ∧ (160 : ℚ) ≤ 180 ∧ ∃ k : ℤ, (160 : ℚ) - 520 = 360 * k := by
  have hrep : IsBinary32 520 := ⟨65, 3, by norm_num, by norm_num, by norm_num⟩
  have hbig : |(520 : ℚ)| < 2 ^ 27 := by norm_num
  have h : normalizeDiffBinary32 3 520 = some 160 := by
    rw [normalizeDiffBinary32_eq_exact 3 520 hrep hbig]
    norm_num [normalizeDiff]
  exact ⟨hrep, h, (normalizeDiffBinary32_ends_below_2_pow_27.1 520 hrep hbig).2 3 160 h⟩

/-- C26: `AI::speedControl` never enables accelerator and brake together, and it enables the
brake only on a `CH_BRAKE` tile with `absSpeed > 0.9 * 14.0` or on a `CH_BRAKE_HARD` tile with
`absSpeed > 0.9 * 9.5`, for every tile, speed and race state. -/
theorem speedControl_never_both (computerHint : ComputerHint) (tileTypeEnum : TileType)
    (absSpeed : ℚ) (isRaceCompleted : Bool) :
    ¬ ((speedControl computerHint tileTypeEnum absSpeed isRaceCompleted).acceleratorEnabled = true ∧
      (speedControl computerHint tileTypeEnum absSpeed isRaceCompleted).brakeEnabled = true) ∧
    ((speedControl computerHint tileTypeEnum absSpeed isRaceCompleted).brakeEnabled = true →
      (computerHint = ComputerHint.CH_BRAKE ∧ absSpeed > (9 / 10) * 14) ∨
      (computerHint = ComputerHint.CH_BRAKE_HARD ∧ absSpeed > (9 / 10) * (95 / 10))) := by
  rw [speedControl_eq]
  refine ⟨selectControls_not_both _ _, fun hb => ?_⟩
  rw [selectControls_brake] at hb
  rcases brakeFlag_true _ _ _ hb with ⟨h1, h2⟩ | ⟨h1, h2⟩
  · exact Or.inl ⟨h1, by linarith⟩
  · exact Or.inr ⟨h1, by linarith⟩

/-- C26 at a hard-brake tile taken at speed 10: the brake is on and the accelerator off. -/
theorem speedControl_never_both_witness :
    speedControl ComputerHint.CH_BRAKE_HARD TileType.TT_CORNER_90 10 false =
        { acceleratorEnabled := false, brakeEnabled := true } ∧
      ((ComputerHint.CH_BRAKE_HARD = ComputerHint.CH_BRAKE ∧ (10 : ℚ) > (9 / 10) * 14) ∨
        (ComputerHint.CH_BRAKE_HARD = ComputerHint.CH_BRAKE_HARD ∧
          (10 : ℚ) > (9 / 10) * (95 / 10))) := by
  have h : speedControl ComputerHint.CH_BRAKE_HARD TileType.TT_CORNER_90 10 false =
      { acceleratorEnabled := false, brakeEnabled := true } := by
    norm_num [speedControl]
  exact ⟨h, (speedControl_never_both ComputerHint.CH_BRAKE_HARD TileType.TT_CORNER_90 10
    false).2 (by rw [h])⟩

/-- C27: while the race is not completed, a car slower than `0.9 * 3.6` gets the accelerator
enabled and the brake disabled on every tile; once the race is completed, a car faster than
`5.0` never gets the accelerator enabled. -/
theorem speedControl_slow_car_accelerates (computerHint : ComputerHint)
    (tileTypeEnum : TileType) (absSpeed : ℚ) :
    (absSpeed < (9 / 10) * (36 / 10) →
      speedControl computerHint tileTypeEnum absSpeed false =
        { acceleratorEnabled := true, brakeEnabled := false }) ∧
    (absSpeed > 5 →
      (speedControl computerHint tileTypeEnum absSpeed true).acceleratorEnabled = false) := by
  constructor
  · intro h
    have h' : absSpeed < 36 / 10 * (9 / 10) := by linarith
    rw [speedControl_eq, brakeFlag_slow _ _ h', accelerateFlag_slow _ _ h']
    rfl
  · intro h
    rw [speedControl_eq, selectControls_accelerator, accelerateFlag_cooldown _ _ h]
    simp

/-- C27 at speed 3 on a hard-brake corner tile during the race, and at speed 6 after it. -/
theorem speedControl_slow_car_accelerates_witness :
    speedControl ComputerHint.CH_BRAKE_HARD TileType.TT_CORNER_90 3 false =
        { acceleratorEnabled := true, brakeEnabled := false } ∧
      (speedControl ComputerHint.CH_NONE TileType.TT_OTHER 6 true).acceleratorEnabled = false :=
  ⟨(speedControl_slow_car_accelerates ComputerHint.CH_BRAKE_HARD TileType.TT_CORNER_90 3).1
      (by norm_num),
    (speedControl_slow_car_accelerates ComputerHint.CH_NONE TileType.TT_OTHER 6).2
      (by norm_num)⟩

/-- C28: for every text and every glyph size `(w, h)` with `w ≥ 0`, `updateTextDimensions`
sets the text height to `h * (1 + number of newlines)` and the text width to
`w * (length of the longest run of non-newline characters between newlines)`, and leaves the
text and the glyph size alone; for the empty text the width is 0 and the height is `h`. The
same holds after `setText` and `setGlyphSize`, which end in `updateTextDimensions`. -/
theorem updateTextDimensions_height_and_width [LinearOrderedCommRing T] (t : MCTextureText T)
    (hw : 0 ≤ t.m_glyphWidth) :
    (t.updateTextDimensions.m_textHeight = t.m_glyphHeight * (1 + (newlineCount t.m_text : T)) ∧
      t.updateTextDimensions.m_textWidth = t.m_glyphWidth * (longestRun t.m_text : T) ∧
      t.updateTextDimensions.m_text = t.m_text ∧
      t.updateTextDimensions.m_glyphWidth = t.m_glyphWidth ∧
      t.updateTextDimensions.m_glyphHeight = t.m_glyphHeight) ∧
    (t.m_text = [] →
      t.updateTextDimensions.m_textWidth = 0 ∧
        t.updateTextDimensions.m_textHeight = t.m_glyphHeight) ∧
    (∀ text : List Char,
      (t.setText text).m_textHeight = t.m_glyphHeight * (1 + (newlineCount text : T)) ∧
        (t.setText text).m_textWidth = t.m_glyphWidth * (longestRun text : T)) ∧
    (∀ w h : T, 0 ≤ w →
      (t.setGlyphSize w h).m_textHeight = h * (1 + (newlineCount t.m_text : T)) ∧
        (t.setGlyphSize w h).m_textWidth = w * (longestRun t.m_text : T)) := by
  have key : ∀ s : MCTextureText T, 0 ≤ s.m_glyphWidth →
      s.updateTextDimensions.m_textHeight =
          s.m_glyphHeight * (1 + (newlineCount s.m_text : T)) ∧
        s.updateTextDimensions.m_textWidth = s.m_glyphWidth * (longestRun s.m_text : T) := by
    intro s hs
    constructor
    · simp only [MCTextureText.updateTextDimensions, updateTextDimensionsLoop_height]
      ring
    · have h := updateTextDimensionsLoop_width s.m_glyphWidth s.m_glyphHeight hs s.m_text 0 0
        s.m_glyphHeight
      simp only [Nat.cast_zero, mul_zero] at h
      simp only [MCTextureText.updateTextDimensions, h, runLoop_eq_longestRun]
  refine ⟨⟨(key t hw).1, (key t hw).2, rfl, rfl, rfl⟩, fun he => ?_, fun text => ?_,
    fun w h hw' => ?_⟩
  · rw [(key t hw).1, (key t hw).2, he]
    simp [newlineCount, longestRun, List.splitOn, List.splitOnP_nil]
  · exact key { t with m_text := text } hw
  · exact key { t with m_glyphWidth := w, m_glyphHeight := h } hw'

/-- C28 at the text `ab`, newline, `cde`, newline with glyphs 2 wide and 3 high: two
newlines and a longest run of three characters give height 9 and width 6. -/
theorem updateTextDimensions_height_and_width_witness :
    sampleText.updateTextDimensions.m_textHeight = 9 ∧
      sampleText.updateTextDimensions.m_textWidth = 6 := by
  have h := (updateTextDimensions_height_and_width sampleText
    (by norm_num [sampleText])).1
  have hn : newlineCount sampleText.m_text = 2 := by decide
  have hl : longestRun sampleText.m_text = 3 := by decide
  rw [h.1, h.2.1, hn, hl]
  norm_num [sampleText]

end Claims


end MiniCore
